import Mathlib

/-!
Verification of the sorting algorithms in `introsort_goes_brr.py`.

The Python buffer (a mutable `List[int]`) is modelled as a `List Int`; an
in-place routine becomes a function returning the buffer after the call.
Reads are `getv` (out-of-range reads default to `0`; every theorem below
works in a region where all accesses are proved in range, so the default is
never observed).  Unbounded `while` loops are given an explicit fuel
argument; the top-level entry points pass a fuel that is proved sufficient,
so `none` results correspond exactly to non-termination or (for the
partition scans, which use bounds-checked reads) an out-of-range access.
-/

set_option maxHeartbeats 1000000

namespace SortBench

open List

/-- Reads the buffer at an index, with `0` as the out-of-range default. -/
def getv (arr : List Int) (k : Nat) : Int := arr.getD k 0

/-- Python simultaneous assignment `arr[i], arr[j] = arr[j], arr[i]`:
both reads happen before both writes. -/
def listSwap (arr : List Int) (i j : Nat) : List Int :=
  (arr.set i (getv arr j)).set j (getv arr i)

/-- The half-open slice `arr[lo:hi]` of Python. -/
def subo (arr : List Int) (lo hi : Nat) : List Int :=
  (arr.drop lo).take (hi - lo)

/-- The positions outside `[lo, hi]` (inclusive bounds) are untouched. -/
def FrameOn (arr arr' : List Int) (lo hi : Nat) : Prop :=
  arr'.length = arr.length ∧ ∀ k, (k < lo ∨ hi < k) → getv arr' k = getv arr k

theorem getv_set_self (arr : List Int) (k : Nat) (v : Int) (h : k < arr.length) :
    getv (arr.set k v) k = v := by
  simp [getv, List.getD_eq_getElem?_getD, List.getElem?_set_self, h,
    List.getElem?_eq_getElem]

theorem getv_set_ne (arr : List Int) (k m : Nat) (v : Int) (h : k ≠ m) :
    getv (arr.set k v) m = getv arr m := by
  simp [getv, List.getD_eq_getElem?_getD, List.getElem?_set_ne h]

theorem length_listSwap (arr : List Int) (i j : Nat) :
    (listSwap arr i j).length = arr.length := by
  simp [listSwap]

theorem getv_listSwap_left (arr : List Int) (i j : Nat)
    (hi : i < arr.length) (hij : i ≠ j) :
    getv (listSwap arr i j) i = getv arr j := by
  rw [listSwap, getv_set_ne _ _ _ _ (Ne.symm hij), getv_set_self]
  simpa using hi

theorem getv_listSwap_right (arr : List Int) (i j : Nat)
    (hj : j < arr.length) :
    getv (listSwap arr i j) j = getv arr i := by
  rw [listSwap, getv_set_self]
  simpa using hj

theorem getv_listSwap_other (arr : List Int) (i j k : Nat)
    (h1 : i ≠ k) (h2 : j ≠ k) :
    getv (listSwap arr i j) k = getv arr k := by
  rw [listSwap, getv_set_ne _ _ _ _ h2, getv_set_ne _ _ _ _ h1]

/-- `t.get j` consed on `t.set j a` is a permutation of `a :: t`. -/
theorem getv_cons_set_perm (t : List Int) (j : Nat) (a : Int) (h : j < t.length) :
    getv t j :: t.set j a ~ a :: t := by
  induction t generalizing j with
  | nil => simp at h
  | cons x s ih =>
    cases j with
    | zero =>
      simpa [getv, List.getD] using List.Perm.swap a x s
    | succ j =>
      have hj : j < s.length := by simpa using h
      have : getv (x :: s) (j+1) = getv s j := by simp [getv, List.getD]
      rw [this, List.set_cons_succ]
      calc getv s j :: x :: s.set j a
          ~ x :: getv s j :: s.set j a := List.Perm.swap _ _ _
        _ ~ x :: a :: s := List.Perm.cons x (ih j hj)
        _ ~ a :: x :: s := List.Perm.swap _ _ _

theorem getv_cons_succ (x : Int) (t : List Int) (j : Nat) :
    getv (x :: t) (j+1) = getv t j := by
  simp [getv, List.getD]

theorem getv_cons_zero (x : Int) (t : List Int) :
    getv (x :: t) 0 = x := by
  simp [getv, List.getD]

theorem listSwap_perm (arr : List Int) (i j : Nat)
    (hi : i < arr.length) (hj : j < arr.length) :
    listSwap arr i j ~ arr := by
  induction arr generalizing i j with
  | nil => simp at hi
  | cons x t ih =>
    cases i with
    | zero =>
      cases j with
      | zero => simp [listSwap, getv_cons_zero]
      | succ b =>
        have hb : b < t.length := by simpa using hj
        have : listSwap (x :: t) 0 (b+1) = getv t b :: t.set b x := by
          simp [listSwap, getv_cons_succ, getv_cons_zero]
        rw [this]
        exact getv_cons_set_perm t b x hb
    | succ a =>
      cases j with
      | zero =>
        have ha : a < t.length := by simpa using hi
        have : listSwap (x :: t) (a+1) 0 = getv t a :: t.set a x := by
          simp [listSwap, getv_cons_succ, getv_cons_zero]
        rw [this]
        exact getv_cons_set_perm t a x ha
      | succ b =>
        have : listSwap (x :: t) (a+1) (b+1) = x :: listSwap t a b := by
          simp [listSwap, getv_cons_succ]
        rw [this]
        exact List.Perm.cons x (ih a b (by simpa using hi) (by simpa using hj))

theorem getElem?_subo (arr : List Int) (lo hi n : Nat) :
    (subo arr lo hi)[n]? = if n < hi - lo then arr[lo + n]? else none := by
  rw [subo, List.getElem?_take, List.getElem?_drop]

theorem getv_eq_getElem? (arr : List Int) (k : Nat) :
    getv arr k = arr[k]?.getD 0 := by
  simp [getv, List.getD_eq_getElem?_getD]

theorem length_subo (arr : List Int) (lo hi : Nat) (h : hi ≤ arr.length) :
    (subo arr lo hi).length = hi - lo := by
  simp [subo]
  omega

theorem subo_eq_nil (arr : List Int) (lo hi : Nat) (h : hi ≤ lo) :
    subo arr lo hi = [] := by
  simp [subo, Nat.sub_eq_zero_of_le h]

theorem getv_subo (arr : List Int) (lo hi k : Nat) (h1 : lo + k < hi) :
    getv (subo arr lo hi) k = getv arr (lo + k) := by
  rw [getv_eq_getElem?, getv_eq_getElem?, getElem?_subo, if_pos (by omega)]

theorem subo_zero_length (arr : List Int) : subo arr 0 arr.length = arr := by
  simp [subo]

theorem subo_append (arr : List Int) (lo m hi : Nat) (h1 : lo ≤ m) (h2 : m ≤ hi) :
    subo arr lo hi = subo arr lo m ++ subo arr m hi := by
  have hsum : hi - lo = (m - lo) + (hi - m) := by omega
  rw [subo, hsum, List.take_add, ← subo]
  congr 1
  rw [subo, List.drop_drop]
  congr 2
  omega

theorem subo_set_out (arr : List Int) (lo hi k : Nat) (v : Int)
    (h : k < lo ∨ hi ≤ k) :
    subo (arr.set k v) lo hi = subo arr lo hi := by
  apply List.ext_getElem?
  intro n
  rw [getElem?_subo, getElem?_subo]
  split
  · rw [List.getElem?_set_ne (by omega)]
  · rfl

theorem subo_set_in (arr : List Int) (lo hi k : Nat) (v : Int)
    (h1 : lo ≤ k) (h2 : k < hi) (h3 : hi ≤ arr.length) :
    subo (arr.set k v) lo hi = (subo arr lo hi).set (k - lo) v := by
  apply List.ext_getElem?
  intro n
  rw [getElem?_subo]
  by_cases hn : n = k - lo
  · subst hn
    have e : lo + (k - lo) = k := by omega
    rw [if_pos (by omega), e, List.getElem?_set_self (by omega),
      List.getElem?_set_self (by rw [length_subo _ _ _ h3]; omega)]
  · rw [List.getElem?_set_ne (by omega), List.getElem?_set_ne (fun hh => hn hh.symm),
      getElem?_subo]

theorem subo_listSwap_in (arr : List Int) (lo hi i j : Nat)
    (hi1 : lo ≤ i) (hi2 : i < hi) (hj1 : lo ≤ j) (hj2 : j < hi)
    (hlen : hi ≤ arr.length) :
    subo (listSwap arr i j) lo hi = listSwap (subo arr lo hi) (i - lo) (j - lo) := by
  rw [listSwap, listSwap]
  rw [subo_set_in _ _ _ _ _ hj1 hj2 (by simpa using hlen),
      subo_set_in _ _ _ _ _ hi1 hi2 hlen]
  rw [getv_subo _ _ _ _ (by omega), getv_subo _ _ _ _ (by omega)]
  have e1 : lo + (j - lo) = j := by omega
  have e2 : lo + (i - lo) = i := by omega
  rw [e1, e2]

theorem subo_listSwap_perm (arr : List Int) (lo hi i j : Nat)
    (hi1 : lo ≤ i) (hi2 : i < hi) (hj1 : lo ≤ j) (hj2 : j < hi)
    (hlen : hi ≤ arr.length) :
    subo (listSwap arr i j) lo hi ~ subo arr lo hi := by
  rw [subo_listSwap_in arr lo hi i j hi1 hi2 hj1 hj2 hlen]
  exact listSwap_perm _ _ _ (by rw [length_subo _ _ _ hlen]; omega)
    (by rw [length_subo _ _ _ hlen]; omega)

theorem listSwap_full_perm (arr : List Int) (i j : Nat)
    (hi : i < arr.length) (hj : j < arr.length) :
    listSwap arr i j ~ arr := listSwap_perm arr i j hi hj

theorem subo_singleton (arr : List Int) (lo : Nat) (h : lo < arr.length) :
    subo arr lo (lo + 1) = [getv arr lo] := by
  apply List.ext_getElem?
  intro n
  rw [getElem?_subo]
  cases n with
  | zero =>
    rw [if_pos (by omega)]
    simp [getv_eq_getElem?, List.getElem?_eq_getElem h]
  | succ n => rw [if_neg (by omega)]; simp

theorem getv_eq_getElem (arr : List Int) (k : Nat) (h : k < arr.length) :
    getv arr k = arr[k] := by
  rw [getv_eq_getElem?, List.getElem?_eq_getElem h]
  rfl

theorem getElem?_eq_of_getv (arr arr' : List Int) (k : Nat)
    (hlen : arr'.length = arr.length) (h : getv arr' k = getv arr k) :
    arr'[k]? = arr[k]? := by
  by_cases hk : k < arr.length
  · rw [List.getElem?_eq_getElem hk, List.getElem?_eq_getElem (by omega),
      ← getv_eq_getElem _ _ hk, ← getv_eq_getElem _ _ (by omega), h]
  · rw [List.getElem?_eq_none (by omega), List.getElem?_eq_none (by omega)]

/-- Sortedness of an index range, phrased on reads. -/
theorem sorted_subo_iff (arr : List Int) (lo hi : Nat) (hlen : hi ≤ arr.length) :
    List.Sorted (· ≤ ·) (subo arr lo hi) ↔
      ∀ a b, lo ≤ a → a < b → b < hi → getv arr a ≤ getv arr b := by
  rw [List.Sorted, List.pairwise_iff_getElem]
  constructor
  · intro H a b ha hab hb
    have h1 : a - lo < (subo arr lo hi).length := by rw [length_subo _ _ _ hlen]; omega
    have h2 : b - lo < (subo arr lo hi).length := by rw [length_subo _ _ _ hlen]; omega
    have := H (a - lo) (b - lo) h1 h2 (by omega)
    rwa [← getv_eq_getElem _ _ h1, ← getv_eq_getElem _ _ h2,
      getv_subo _ _ _ _ (by rw [length_subo _ _ _ hlen] at h1; omega),
      getv_subo _ _ _ _ (by rw [length_subo _ _ _ hlen] at h2; omega),
      Nat.add_sub_cancel' (by omega : lo ≤ a),
      Nat.add_sub_cancel' (by omega : lo ≤ b)] at this
  · intro H i j hij1 hij2 hij
    rw [length_subo _ _ _ hlen] at hij1 hij2
    rw [← getv_eq_getElem _ _ (by rw [length_subo _ _ _ hlen]; omega),
      ← getv_eq_getElem _ _ (by rw [length_subo _ _ _ hlen]; omega),
      getv_subo _ _ _ _ (by omega), getv_subo _ _ _ _ (by omega)]
    exact H (lo + i) (lo + j) (by omega) (by omega) (by omega)

theorem frameOn_refl (arr : List Int) (lo hi : Nat) : FrameOn arr arr lo hi :=
  ⟨rfl, fun _ _ => rfl⟩

theorem frameOn_trans {arr arr' arr'' : List Int} {lo hi : Nat}
    (h1 : FrameOn arr arr' lo hi) (h2 : FrameOn arr' arr'' lo hi) :
    FrameOn arr arr'' lo hi :=
  ⟨h2.1.trans h1.1, fun k hk => (h2.2 k hk).trans (h1.2 k hk)⟩

theorem frameOn_mono {arr arr' : List Int} {lo hi lo' hi' : Nat}
    (h : FrameOn arr arr' lo hi) (h1 : lo' ≤ lo) (h2 : hi ≤ hi') :
    FrameOn arr arr' lo' hi' :=
  ⟨h.1, fun k hk => h.2 k (by omega)⟩

theorem frameOn_set (arr : List Int) (lo hi k : Nat) (v : Int)
    (h1 : lo ≤ k) (h2 : k ≤ hi) : FrameOn arr (arr.set k v) lo hi :=
  ⟨by simp, fun m hm => getv_set_ne _ _ _ _ (by omega)⟩

theorem frameOn_listSwap (arr : List Int) (lo hi i j : Nat)
    (h1 : lo ≤ i) (h2 : i ≤ hi) (h3 : lo ≤ j) (h4 : j ≤ hi) :
    FrameOn arr (listSwap arr i j) lo hi :=
  ⟨by simp [listSwap], fun m hm =>
    getv_listSwap_other _ _ _ _ (by omega) (by omega)⟩

theorem subo_eq_of_frame_left {arr arr' : List Int} {lo hi : Nat} (a b : Nat)
    (h : FrameOn arr arr' lo hi) (hb : b ≤ lo) :
    subo arr' a b = subo arr a b := by
  apply List.ext_getElem?
  intro n
  rw [getElem?_subo, getElem?_subo]
  split
  · exact getElem?_eq_of_getv _ _ _ h.1 (h.2 _ (by omega))
  · rfl

theorem subo_eq_of_frame_right {arr arr' : List Int} {lo hi : Nat} (a b : Nat)
    (h : FrameOn arr arr' lo hi) (ha : hi < a) :
    subo arr' a b = subo arr a b := by
  apply List.ext_getElem?
  intro n
  rw [getElem?_subo, getElem?_subo]
  split
  · exact getElem?_eq_of_getv _ _ _ h.1 (h.2 _ (by omega))
  · rfl

/-- A frame on `[lo, hi]` together with a permutation of the slice gives a
permutation of the whole buffer. -/
theorem perm_of_frame_subo {arr arr' : List Int} {lo hi : Nat}
    (hlen : hi < arr.length) (hlo : lo ≤ hi + 1)
    (hf : FrameOn arr arr' lo hi)
    (hp : subo arr' lo (hi + 1) ~ subo arr lo (hi + 1)) :
    arr' ~ arr := by
  have hl : arr'.length = arr.length := hf.1
  have d1 : arr' = subo arr' 0 lo ++ subo arr' lo (hi+1) ++ subo arr' (hi+1) arr'.length := by
    conv_lhs => rw [← subo_zero_length arr']
    rw [subo_append arr' 0 (hi+1) arr'.length (by omega) (by omega),
      subo_append arr' 0 lo (hi+1) (by omega) hlo]
  have d2 : arr = subo arr 0 lo ++ subo arr lo (hi+1) ++ subo arr (hi+1) arr.length := by
    conv_lhs => rw [← subo_zero_length arr]
    rw [subo_append arr 0 (hi+1) arr.length (by omega) (by omega),
      subo_append arr 0 lo (hi+1) (by omega) hlo]
  rw [d1, d2, subo_eq_of_frame_left 0 lo hf (le_refl lo), hl,
    subo_eq_of_frame_right (hi+1) arr.length hf (by omega)]
  exact (hp.append_left _).append_right _

/-- Insertion of a value into a list, before the first strictly larger
element.  On a sorted list this is the position where Python's insertion
shifting (`while j >= low and arr[j] > temp`) deposits `temp`. -/
def pyInsert (x : Int) : List Int → List Int
  | [] => [x]
  | a :: t => if x < a then x :: a :: t else a :: pyInsert x t

/-- Models Python's builtin `sorted` on integer lists: the ascending
reordering (stability is unobservable on values). -/
def sortPy : List Int → List Int
  | [] => []
  | a :: t => pyInsert a (sortPy t)

theorem length_pyInsert (x : Int) (l : List Int) :
    (pyInsert x l).length = l.length + 1 := by
  induction l with
  | nil => rfl
  | cons a t ih =>
    rw [pyInsert]
    split
    · simp
    · simp [ih]

theorem pyInsert_perm (x : Int) (l : List Int) : pyInsert x l ~ x :: l := by
  induction l with
  | nil => simp [pyInsert]
  | cons a t ih =>
    rw [pyInsert]
    split
    · exact Perm.refl _
    · calc a :: pyInsert x t ~ a :: x :: t := ih.cons a
        _ ~ x :: a :: t := Perm.swap _ _ _

theorem mem_pyInsert (x y : Int) (l : List Int) :
    y ∈ pyInsert x l ↔ y = x ∨ y ∈ l := by
  rw [(pyInsert_perm x l).mem_iff, List.mem_cons]

theorem pyInsert_sorted {l : List Int} (x : Int) (h : List.Sorted (· ≤ ·) l) :
    List.Sorted (· ≤ ·) (pyInsert x l) := by
  induction l with
  | nil => simp [pyInsert]
  | cons a t ih =>
    rw [List.sorted_cons] at h
    rw [pyInsert]
    split
    · rename_i hlt
      rw [List.sorted_cons]
      refine ⟨?_, List.sorted_cons.mpr h⟩
      intro b hb
      rcases List.mem_cons.mp hb with hb | hb
      · omega
      · have := h.1 b hb
        omega
    · rename_i hge
      rw [List.sorted_cons]
      refine ⟨?_, ih h.2⟩
      intro b hb
      rcases (mem_pyInsert x b t).mp hb with hb | hb
      · omega
      · exact h.1 b hb

theorem pyInsert_append_big (x a : Int) (l : List Int) (h : x < a) :
    pyInsert x (l ++ [a]) = pyInsert x l ++ [a] := by
  induction l with
  | nil => simp [pyInsert, h]
  | cons b t ih =>
    rw [List.cons_append, pyInsert, pyInsert]
    split
    · rfl
    · rw [ih, List.cons_append]

theorem pyInsert_all_le (x : Int) (l : List Int) (h : ∀ a ∈ l, a ≤ x) :
    pyInsert x l = l ++ [x] := by
  induction l with
  | nil => rfl
  | cons b t ih =>
    rw [pyInsert, if_neg (by have := h b (by simp); omega)]
    rw [ih fun a ha => h a (by simp [ha])]
    rfl

theorem sortPy_perm (l : List Int) : sortPy l ~ l := by
  induction l with
  | nil => exact Perm.refl _
  | cons a t ih =>
    rw [sortPy]
    exact (pyInsert_perm a (sortPy t)).trans (ih.cons a)

theorem sortPy_sorted (l : List Int) : List.Sorted (· ≤ ·) (sortPy l) := by
  induction l with
  | nil => simp [sortPy]
  | cons a t ih => exact pyInsert_sorted a ih

theorem mem_sortPy (x : Int) (l : List Int) : x ∈ sortPy l ↔ x ∈ l :=
  (sortPy_perm l).mem_iff

theorem length_sortPy (l : List Int) : (sortPy l).length = l.length :=
  (sortPy_perm l).length_eq

/-! Embeddings of the source file `introsort_goes_brr.py`. -/

/-- Embeds `_sift_down` (lines 19-31).  The `while True` loop gets explicit
fuel; the node index strictly increases every iteration, so `n` steps always
suffice (the entry points pass `n`). -/
def sift_down (arr : List Int) (n : Nat) : Nat → Nat → List Int
  | 0, _ => arr
  | fuel+1, i =>
    let left := 2*i + 1
    let right := left + 1
    let largest1 := if left < n ∧ getv arr left > getv arr i then left else i
    let largest := if right < n ∧ getv arr right > getv arr largest1 then right else largest1
    if largest = i then arr
    else sift_down (listSwap arr i largest) n fuel largest

/-- Build loop of `heapsort` (lines 35-36): `for i in range((n >> 1) - 1, -1, -1)`;
`heapsortBuild arr n c` runs the body for `i = c-1, c-2, ..., 0`. -/
def heapsortBuild (arr : List Int) (n : Nat) : Nat → List Int
  | 0 => arr
  | c+1 => heapsortBuild (sift_down arr n n c) n c

/-- Extraction loop of `heapsort` (lines 37-39): `for end in range(n - 1, 0, -1)`;
`heapsortExtract arr e` runs the body for `end = e, e-1, ..., 1`. -/
def heapsortExtract (arr : List Int) : Nat → List Int
  | 0 => arr
  | e+1 => heapsortExtract (sift_down (listSwap arr 0 (e+1)) (e+1) (e+1) 0) e

/-- Embeds `heapsort` (lines 33-40). -/
def heapsort (arr : List Int) : List Int :=
  heapsortExtract (heapsortBuild arr arr.length (arr.length / 2)) (arr.length - 1)

/-- Bounds-checked read used by the partition scans.  The specification
asserts the scans only read inside `[low, high]`, so a read outside that
window yields `none` (and the theorems below show it never does under the
stated preconditions). -/
def getChk (arr : List Int) (low high : Nat) (idx : Int) : Option Int :=
  if (low : Int) ≤ idx ∧ idx ≤ (high : Int) then some (getv arr idx.toNat) else none

/-- The scan `i += 1; while arr[i] < pivot: i += 1` (lines 134-136, 50-52). -/
def scanUp (arr : List Int) (low high : Nat) (pivot : Int) : Int → Nat → Option Int
  | _, 0 => none
  | i, fuel+1 => do
    let v ← getChk arr low high (i + 1)
    if v < pivot then scanUp arr low high pivot (i + 1) fuel else pure (i + 1)

/-- The scan `j -= 1; while arr[j] > pivot: j -= 1` (lines 137-139, 53-55). -/
def scanDown (arr : List Int) (low high : Nat) (pivot : Int) : Int → Nat → Option Int
  | _, 0 => none
  | j, fuel+1 => do
    let v ← getChk arr low high (j - 1)
    if v > pivot then scanDown arr low high pivot (j - 1) fuel else pure (j - 1)

/-- The partition loop `while True: ... if i >= j: return j; swap` (lines
133-142; the source has the same loop inline in `_hoare_partition`, lines
48-58).  Cursors are Python ints; the returned split index is a checked
read position, hence non-negative, and is returned as `Nat`. -/
def hoareLoop (arr : List Int) (low high : Nat) (pivot : Int) :
    Int → Int → Nat → Option (List Int × Nat)
  | _, _, 0 => none
  | i, j, fuel+1 => do
    let i' ← scanUp arr low high pivot i (high + 2 - low)
    let j' ← scanDown arr low high pivot j (high + 2 - low)
    if i' ≥ j' then pure (arr, j'.toNat)
    else hoareLoop (listSwap arr i'.toNat j'.toNat) low high pivot i' j' fuel

/-- One Hoare partition of `[low, high]` around a pivot value:
`i, j = low - 1, high + 1` followed by the loop. -/
def hoarePartition (arr : List Int) (low high : Nat) (pivot : Int) :
    Option (List Int × Nat) :=
  hoareLoop arr low high pivot ((low : Int) - 1) ((high : Int) + 1) (high + 2 - low)

/-- Embeds `_hoare_partition` (lines 46-58): the pivot is
`arr[(low + high) >> 1]`. -/
def hoare_partition (arr : List Int) (low high : Nat) : Option (List Int × Nat) :=
  hoarePartition arr low high (getv arr ((low + high) / 2))

/-- Embeds the body of `quicksort_hoare` (lines 63-71): the
`while low < high` loop with smaller-side recursion; the loop iterations
and nested calls share the fuel argument. -/
def quicksortLoop (arr : List Int) (low high : Nat) : Nat → Option (List Int)
  | 0 => none
  | fuel+1 =>
    if low < high then do
      let (arr1, p) ← hoare_partition arr low high
      if (p : Int) - low < (high : Int) - p then do
        let arr2 ← quicksortLoop arr1 low p fuel
        quicksortLoop arr2 (p + 1) high fuel
      else do
        let arr2 ← quicksortLoop arr1 (p + 1) high fuel
        quicksortLoop arr2 low p fuel
    else pure arr

/-- Embeds `quicksort_hoare` at its default arguments (`low = 0`,
`high = len(arr) - 1`). -/
def quicksort_hoare (arr : List Int) : Option (List Int) :=
  quicksortLoop arr 0 (arr.length - 1) (arr.length + 1)

/-- Embeds `_median_of_three` (lines 77-93). -/
def median_of_three (arr : List Int) (low high : Nat) : Int :=
  let mid := (low + high) / 2
  let a := getv arr low
  let b := getv arr mid
  let c := getv arr high
  if a < b then
    if b < c then b
    else if a < c then c
    else a
  else
    if a < c then a
    else if b < c then c
    else b

/-- Embeds `_median_of_ninthers` (lines 95-103); Python `sorted` is
`sortPy`, `samples[i:i+3]` is `(samples.drop i).take 3`. -/
def median_of_ninthers (arr : List Int) (low high : Nat) : Int :=
  let size := high - low + 1
  if size < 9 then getv arr ((low + high) / 2)
  else
    let step := max (size / 9) 1
    let samples := (List.range 9).map fun i => getv arr (low + i * step)
    let groups := (List.range' 0 3 3).map fun i => sortPy ((samples.drop i).take 3)
    let medians := groups.map fun g => getv g 1
    getv (sortPy medians) 1

/-- The inner shift of `_insertion_sort` (lines 112-116), with the cursor
written as `j = low + d`: shift elements greater than `temp` rightwards,
then drop `temp` into the hole; structural recursion on `d` replaces the
downward `while j >= low` loop. -/
def shiftIns (arr : List Int) (low : Nat) (temp : Int) : Nat → List Int
  | 0 =>
    if getv arr low > temp then (arr.set (low + 1) (getv arr low)).set low temp
    else arr.set (low + 1) temp
  | d+1 =>
    if getv arr (low + d + 1) > temp then
      shiftIns (arr.set (low + d + 2) (getv arr (low + d + 1))) low temp d
    else arr.set (low + d + 2) temp

/-- Outer loop of `_insertion_sort` (lines 110-116): runs the body for
`i, i+1, ...` while the first argument counts the remaining iterations. -/
def insLoop (arr : List Int) (low : Nat) : Nat → Nat → List Int
  | 0, _ => arr
  | c+1, i => insLoop (shiftIns arr low (getv arr i) (i - 1 - low)) low c (i + 1)

/-- Embeds `_insertion_sort` (lines 109-116): `for i in range(low+1, high+1)`. -/
def insertion_sort (arr : List Int) (low high : Nat) : List Int :=
  insLoop arr low (high - low) (low + 1)

/-- The global pivot-strategy toggle (line 13). -/
def USE_NINTHERS : Bool := true

/-- The local `sift` of `_heapsort_partial` (lines 151-163), offset by `l`. -/
def siftOff (arr : List Int) (l n : Nat) : Nat → Nat → List Int
  | 0, _ => arr
  | fuel+1, i =>
    let left := 2*i + 1
    let right := left + 1
    let largest1 := if left < n ∧ getv arr (l + left) > getv arr (l + i) then left else i
    let largest := if right < n ∧ getv arr (l + right) > getv arr (l + largest1) then right
      else largest1
    if largest = i then arr
    else siftOff (listSwap arr (l + i) (l + largest)) l n fuel largest

/-- Build loop of `_heapsort_partial` (lines 166-167). -/
def heapRangeBuild (arr : List Int) (l n : Nat) : Nat → List Int
  | 0 => arr
  | c+1 => heapRangeBuild (siftOff arr l n n c) l n c

/-- Extraction loop of `_heapsort_partial` (lines 168-170). -/
def heapRangeExtract (arr : List Int) (l : Nat) : Nat → List Int
  | 0 => arr
  | e+1 => heapRangeExtract (siftOff (listSwap arr l (l + (e+1))) l (e+1) (e+1) 0) l e

/-- Embeds `_heapsort_partial` (lines 150-170). -/
def heapsortRange (arr : List Int) (low high : Nat) : List Int :=
  let n := high - low + 1
  heapRangeExtract (heapRangeBuild arr low n (n / 2)) low (n - 1)

/-- Embeds `_introsort` (lines 123-148).  The `while low < high` loop and
the nested recursive call both draw on the fuel argument; any fuel larger
than `high - low` is proved sufficient below.  The depth budget is a Python
int: the nested call on the smaller side receives `d - 1` (lines 144, 147)
while the loop continues on the larger side with `d` unchanged (lines
145, 148). -/
def introLoop (arr : List Int) (low high : Nat) (d : Int) : Nat → Option (List Int)
  | 0 => none
  | fuel+1 =>
    if low < high then
      if high - low + 1 ≤ 16 then pure (insertion_sort arr low high)
      else if d = 0 then pure (heapsortRange arr low high)
      else do
        let pivot := if USE_NINTHERS then median_of_ninthers arr low high
          else median_of_three arr low high
        let (arr1, j) ← hoarePartition arr low high pivot
        if (j : Int) - low < (high : Int) - j then do
          let arr2 ← introLoop arr1 low j (d - 1) fuel
          introLoop arr2 (j + 1) high d fuel
        else do
          let arr2 ← introLoop arr1 (j + 1) high (d - 1) fuel
          introLoop arr2 low j d fuel
    else pure arr

/-- Python `int.bit_length` for naturals, via fuelled binary recursion. -/
def bitLenF : Nat → Nat → Nat
  | 0, _ => 0
  | f+1, n => if n = 0 then 0 else bitLenF f (n / 2) + 1

/-- Python `n.bit_length()` (`n` a length, hence a natural). -/
def bit_length (n : Nat) : Nat := bitLenF n n

/-- Embeds `introsort` (lines 118-121):
`maxdepth = (len(arr).bit_length() - 1) * 2`. -/
def introsort (arr : List Int) : Option (List Int) :=
  introLoop arr 0 (arr.length - 1) (((bit_length arr.length : Int) - 1) * 2)
    (arr.length + 1)

/-- Embeds `_merge` (lines 184-196): with `left[i:]` and `right[j:]` as the
arguments, the two-cursor `while` loop is the recursion below and the two
`extend` calls are the base cases. -/
def merge : List Int → List Int → List Int
  | [], r => r
  | l, [] => l
  | a :: l, b :: r => if a < b then a :: merge l (b :: r) else b :: merge (a :: l) r

/-- Embeds `mergesort` (lines 176-182); fuel bounds the recursion depth and
the length always suffices. -/
def mergesortF : Nat → List Int → List Int
  | 0, arr => arr
  | fuel+1, arr =>
    if arr.length ≤ 1 then arr
    else
      merge (mergesortF fuel (arr.take (arr.length / 2)))
        (mergesortF fuel (arr.drop (arr.length / 2)))

/-- Embeds `mergesort` at the top level. -/
def mergesort (arr : List Int) : List Int := mergesortF arr.length arr

/-- One merging pass of `mergesort_bottom_up` (lines 203-206):
`for i in range(0, n, 2*width)`, slice-assigning the merge of
`result[i:i+width]` and `result[i+width:i+2*width]`. -/
def buPass (res : List Int) (n w : Nat) : Nat → Nat → List Int
  | 0, _ => res
  | c+1, i =>
    if i < n then
      buPass (res.take i ++ merge ((res.drop i).take w) ((res.drop (i + w)).take w)
        ++ res.drop (i + 2*w)) n w c (i + 2*w)
    else res

/-- Outer doubling loop of `mergesort_bottom_up` (lines 202-207). -/
def buLoop (res : List Int) (n : Nat) : Nat → Nat → List Int
  | 0, _ => res
  | fuel+1, w =>
    if w < n then buLoop (buPass res n w n 0) n fuel (2*w)
    else res

/-- Embeds `mergesort_bottom_up` (lines 198-208); `result = arr[:]` is the
value itself in the pure model. -/
def mergesort_bottom_up (arr : List Int) : List Int :=
  buLoop arr arr.length (arr.length + 1) 1

/-- Driver events recorded by the instrumented copy of `_introsort`: which
sub-algorithm handled which subrange, at which depth budget.  A `split`
event also records the budget passed to the nested call on the smaller
side (`dNested`) and the budget the loop-back continues with on the larger
side (`dLoop`), exactly the values the recursion below passes on. -/
inductive IEv where
  | ins (low high : Nat) (d : Int)
  | heap (low high : Nat) (d : Int)
  | split (low high : Nat) (d : Int) (j : Nat) (dNested dLoop : Int)
  deriving DecidableEq, Repr

/-- Instrumented copy of `introLoop` (lines 123-148): the same recursion,
also returning the events in execution order. -/
def introEvents (arr : List Int) (low high : Nat) (d : Int) :
    Nat → Option (List Int × List IEv)
  | 0 => none
  | fuel+1 =>
    if low < high then
      if high - low + 1 ≤ 16 then pure (insertion_sort arr low high, [IEv.ins low high d])
      else if d = 0 then pure (heapsortRange arr low high, [IEv.heap low high d])
      else do
        let pivot := if USE_NINTHERS then median_of_ninthers arr low high
          else median_of_three arr low high
        let (arr1, j) ← hoarePartition arr low high pivot
        let dN := d - 1
        let dL := d
        if (j : Int) - low < (high : Int) - j then do
          let (arr2, evs1) ← introEvents arr1 low j dN fuel
          let (arr3, evs2) ← introEvents arr2 (j + 1) high dL fuel
          pure (arr3, IEv.split low high d j dN dL :: (evs1 ++ evs2))
        else do
          let (arr2, evs1) ← introEvents arr1 (j + 1) high dN fuel
          let (arr3, evs2) ← introEvents arr2 low j dL fuel
          pure (arr3, IEv.split low high d j dN dL :: (evs1 ++ evs2))
    else pure (arr, [])

/-! Correctness of `mergesort`. -/

theorem merge_nil_left (r : List Int) : merge [] r = r := by simp [merge]

theorem merge_nil_right (l : List Int) : merge l [] = l := by
  cases l <;> simp [merge]

theorem merge_cons_cons (a b : Int) (l r : List Int) :
    merge (a :: l) (b :: r) =
      if a < b then a :: merge l (b :: r) else b :: merge (a :: l) r := by
  simp [merge]

theorem merge_perm (l : List Int) : ∀ r, merge l r ~ l ++ r := by
  induction l with
  | nil => intro r; rw [merge_nil_left]; exact Perm.refl _
  | cons a l ihl =>
    intro r
    induction r with
    | nil => rw [merge_nil_right, List.append_nil]
    | cons b r ihr =>
      rw [merge_cons_cons]
      split
      · exact (ihl (b :: r)).cons a
      · exact (ihr.cons b).trans List.perm_middle.symm

theorem mem_merge {x : Int} {l r : List Int} : x ∈ merge l r ↔ x ∈ l ∨ x ∈ r := by
  rw [(merge_perm l r).mem_iff, List.mem_append]

theorem merge_sorted (l : List Int) : ∀ r, List.Sorted (· ≤ ·) l →
    List.Sorted (· ≤ ·) r → List.Sorted (· ≤ ·) (merge l r) := by
  induction l with
  | nil => intro r _ hr; rwa [merge_nil_left]
  | cons a l ihl =>
    intro r
    induction r with
    | nil => intro hl _; rwa [merge_nil_right]
    | cons b r ihr =>
      intro hl hr
      rw [List.sorted_cons] at hl hr
      rw [merge_cons_cons]
      split
      · rename_i hab
        rw [List.sorted_cons]
        refine ⟨?_, ihl (b :: r) hl.2 (List.sorted_cons.mpr hr)⟩
        intro c hc
        rcases mem_merge.mp hc with hc | hc
        · exact hl.1 c hc
        · rcases List.mem_cons.mp hc with hc | hc
          · omega
          · have := hr.1 c hc; omega
      · rename_i hab
        rw [List.sorted_cons]
        refine ⟨?_, ihr (List.sorted_cons.mpr hl) hr.2⟩
        intro c hc
        rcases mem_merge.mp hc with hc | hc
        · rcases List.mem_cons.mp hc with hc | hc
          · omega
          · have := hl.1 c hc; omega
        · exact hr.1 c hc

theorem mergesortF_perm : ∀ (fuel : Nat) (arr : List Int), mergesortF fuel arr ~ arr := by
  intro fuel
  induction fuel with
  | zero => intro arr; exact Perm.refl _
  | succ fuel ih =>
    intro arr
    rw [mergesortF]
    split
    · exact Perm.refl _
    · calc merge (mergesortF fuel (arr.take (arr.length / 2)))
            (mergesortF fuel (arr.drop (arr.length / 2)))
          ~ mergesortF fuel (arr.take (arr.length / 2)) ++
            mergesortF fuel (arr.drop (arr.length / 2)) := merge_perm _ _
        _ ~ arr.take (arr.length / 2) ++ arr.drop (arr.length / 2) :=
            (ih _).append (ih _)
        _ = arr := List.take_append_drop _ _

theorem mergesortF_sorted : ∀ (fuel : Nat) (arr : List Int),
    arr.length ≤ fuel → List.Sorted (· ≤ ·) (mergesortF fuel arr) := by
  intro fuel
  induction fuel with
  | zero =>
    intro arr h
    have : arr = [] := List.length_eq_zero.mp (by omega)
    subst this
    simp [mergesortF]
  | succ fuel ih =>
    intro arr h
    rw [mergesortF]
    split
    · rename_i h1
      match arr, h1 with
      | [], _ => simp
      | [a], _ => simp
    · rename_i h1
      have h2 : 2 ≤ arr.length := by omega
      apply merge_sorted
      · apply ih
        rw [List.length_take]
        omega
      · apply ih
        rw [List.length_drop]
        omega

theorem mergesort_perm (arr : List Int) : mergesort arr ~ arr :=
  mergesortF_perm _ _

theorem mergesort_sorted (arr : List Int) : List.Sorted (· ≤ ·) (mergesort arr) :=
  mergesortF_sorted _ _ (le_refl _)

/-! Correctness of the Hoare partition. -/

theorem scanUp_spec (arr : List Int) (low high : Nat) (pivot : Int) :
    ∀ (fuel : Nat) (i : Int) (s : Nat),
      i < (s : Int) → s ≤ high → pivot ≤ getv arr s → (low : Int) ≤ i + 1 →
      (s : Int) - i ≤ (fuel : Int) →
      ∃ i' : Nat, scanUp arr low high pivot i fuel = some (i' : Int) ∧
        i < (i' : Int) ∧ i' ≤ s ∧ pivot ≤ getv arr i' ∧
        ∀ k : Nat, i < (k : Int) → k < i' → getv arr k < pivot := by
  intro fuel
  induction fuel with
  | zero =>
    intro i s h1 h2 h3 h4 h5
    exfalso
    simp only [Nat.cast_zero] at h5
    omega
  | succ fuel ih =>
    intro i s h1 h2 h3 h4 h5
    have hnn : 0 ≤ i + 1 := by omega
    have hcast : ((i + 1).toNat : Int) = i + 1 := Int.toNat_of_nonneg hnn
    have hchk : getChk arr low high (i + 1) = some (getv arr (i + 1).toNat) := by
      rw [getChk, if_pos ⟨h4, by omega⟩]
    rw [scanUp, hchk]
    simp only [Option.bind_eq_bind, Option.some_bind]
    by_cases hlt : getv arr (i + 1).toNat < pivot
    · rw [if_pos hlt]
      have hne : i + 1 < (s : Int) := by
        rcases lt_or_eq_of_le (by omega : i + 1 ≤ (s : Int)) with h | h
        · exact h
        · exfalso
          have : (i + 1).toNat = s := by omega
          rw [this] at hlt
          omega
      obtain ⟨i', e1, e2, e3, e4, e5⟩ :=
        ih (i + 1) s hne h2 h3 (by omega) (by omega)
      refine ⟨i', e1, by omega, e3, e4, ?_⟩
      intro k hk1 hk2
      by_cases hk : (k : Int) = i + 1
      · have : k = (i + 1).toNat := by omega
        rw [this]
        exact hlt
      · exact e5 k (by omega) hk2
    · rw [if_neg hlt]
      refine ⟨(i + 1).toNat, ?_, by omega, by omega, by omega, ?_⟩
      · rw [hcast]; rfl
      · intro k hk1 hk2
        exfalso
        omega

theorem scanDown_spec (arr : List Int) (low high : Nat) (pivot : Int) :
    ∀ (fuel : Nat) (j : Int) (t : Nat),
      (t : Int) < j → low ≤ t → getv arr t ≤ pivot → j - 1 ≤ (high : Int) →
      j - (t : Int) ≤ (fuel : Int) →
      ∃ j' : Nat, scanDown arr low high pivot j fuel = some (j' : Int) ∧
        (j' : Int) < j ∧ t ≤ j' ∧ getv arr j' ≤ pivot ∧
        ∀ k : Nat, j' < k → (k : Int) < j → pivot < getv arr k := by
  intro fuel
  induction fuel with
  | zero =>
    intro j t h1 h2 h3 h4 h5
    exfalso
    simp only [Nat.cast_zero] at h5
    omega
  | succ fuel ih =>
    intro j t h1 h2 h3 h4 h5
    have hnn : 0 ≤ j - 1 := by omega
    have hcast : ((j - 1).toNat : Int) = j - 1 := Int.toNat_of_nonneg hnn
    have hchk : getChk arr low high (j - 1) = some (getv arr (j - 1).toNat) := by
      rw [getChk, if_pos ⟨by omega, h4⟩]
    rw [scanDown, hchk]
    simp only [Option.bind_eq_bind, Option.some_bind]
    by_cases hgt : getv arr (j - 1).toNat > pivot
    · rw [if_pos hgt]
      have hne : (t : Int) < j - 1 := by
        rcases lt_or_eq_of_le (by omega : (t : Int) ≤ j - 1) with h | h
        · exact h
        · exfalso
          have : (j - 1).toNat = t := by omega
          rw [this] at hgt
          omega
      obtain ⟨j', e1, e2, e3, e4, e5⟩ :=
        ih (j - 1) t hne h2 h3 (by omega) (by omega)
      refine ⟨j', e1, by omega, e3, e4, ?_⟩
      intro k hk1 hk2
      by_cases hk : (k : Int) = j - 1
      · have : k = (j - 1).toNat := by omega
        rw [this]
        exact hgt
      · exact e5 k hk1 (by omega)
    · rw [if_neg hgt]
      refine ⟨(j - 1).toNat, ?_, by omega, by omega, by omega, ?_⟩
      · rw [hcast]; rfl
      · intro k hk1 hk2
        exfalso
        omega

/-- Invariant lemma for the partition loop at a state reached after a swap:
the cursors sit on swapped positions (`arr[i] ≤ pivot ≤ arr[j]`), everything
in `[low, i]` is `≤ pivot` and everything in `[j, high]` is `≥ pivot`. -/
theorem hoareLoop_spec (low high : Nat) (pivot : Int) :
    ∀ (fuel : Nat) (arr : List Int) (i j : Nat),
      low ≤ i → i < j → j ≤ high → high < arr.length →
      (∀ k : Nat, low ≤ k → k ≤ i → getv arr k ≤ pivot) →
      (∀ k : Nat, j ≤ k → k ≤ high → pivot ≤ getv arr k) →
      (j : Int) - (i : Int) ≤ (fuel : Int) →
      ∃ arr' j', hoareLoop arr low high pivot i j fuel = some (arr', j') ∧
        low ≤ j' ∧ j' < j ∧
        (∀ k : Nat, low ≤ k → k ≤ j' → getv arr' k ≤ pivot) ∧
        (∀ k : Nat, j' < k → k ≤ high → pivot ≤ getv arr' k) ∧
        subo arr' low (high + 1) ~ subo arr low (high + 1) ∧
        FrameOn arr arr' low high := by
  intro fuel
  induction fuel with
  | zero =>
    intro arr i j h1 h2 h3 h4 hL hR h7
    exfalso
    simp only [Nat.cast_zero] at h7
    omega
  | succ fuel ih =>
    intro arr i j h1 h2 h3 h4 hL hR h7
    obtain ⟨i₁, si, si1, si2, si3, si4⟩ :=
      scanUp_spec arr low high pivot (high + 2 - low) i j (by omega) h3
        (hR j (le_refl j) h3) (by omega) (by omega)
    obtain ⟨j₁, sj, sj1, sj2, sj3, sj4⟩ :=
      scanDown_spec arr low high pivot (high + 2 - low) j i (by omega) h1
        (hL i h1 (le_refl i)) (by omega) (by omega)
    rw [hoareLoop, si, sj]
    simp only [Option.bind_eq_bind, Option.some_bind, ge_iff_le, Nat.cast_le,
      Int.toNat_natCast, Option.pure_def]
    by_cases hex : j₁ ≤ i₁
    · rw [if_pos hex]
      refine ⟨arr, j₁, rfl, by omega, by omega, ?_, ?_, Perm.refl _, frameOn_refl _ _ _⟩
      · intro k hk1 hk2
        by_cases hki : k ≤ i
        · exact hL k hk1 hki
        · by_cases hki1 : k < i₁
          · exact le_of_lt (si4 k (by omega) hki1)
          · have : k = j₁ := by omega
            rw [this]
            exact sj3
      · intro k hk1 hk2
        by_cases hkj : j ≤ k
        · exact hR k hkj hk2
        · exact le_of_lt (sj4 k hk1 (by omega))
    · rw [if_neg hex]
      have hij₁ : i₁ < j₁ := by omega
      have hi₁len : i₁ < arr.length := by omega
      have hj₁len : j₁ < arr.length := by omega
      have hne : i₁ ≠ j₁ := by omega
      obtain ⟨arr', j', e, p1, p2, pL, pR, pperm, pframe⟩ :=
        ih (listSwap arr i₁ j₁) i₁ j₁ (by omega) hij₁ (by omega)
          (by rw [length_listSwap]; exact h4)
          (by
            intro k hk1 hk2
            by_cases hki : k = i₁
            · subst hki
              rw [getv_listSwap_left arr k j₁ hi₁len hne]
              exact sj3
            · rw [getv_listSwap_other arr i₁ j₁ k (Ne.symm hki) (by omega)]
              by_cases hk : k ≤ i
              · exact hL k hk1 hk
              · exact le_of_lt (si4 k (by omega) (by omega)))
          (by
            intro k hk1 hk2
            by_cases hkj : k = j₁
            · subst hkj
              rw [getv_listSwap_right arr i₁ k hj₁len]
              exact si3
            · rw [getv_listSwap_other arr i₁ j₁ k (by omega) (Ne.symm hkj)]
              by_cases hk : j ≤ k
              · exact hR k hk hk2
              · exact le_of_lt (sj4 k (by omega) (by omega)))
          (by omega)
      refine ⟨arr', j', e, p1, by omega, pL, pR, ?_, ?_⟩
      · exact pperm.trans (subo_listSwap_perm arr low (high + 1) i₁ j₁
          (by omega) (by omega) (by omega) (by omega) (by omega))
      · exact frameOn_trans (frameOn_listSwap arr low high i₁ j₁
          (by omega) (by omega) (by omega) (by omega)) pframe

/-- Specification of one Hoare partition call on `[low, high]`.  The pivot
must be bounded above by some value in the range (`sUp`) and below by some
value in the range (`sDn`); any pivot value occurring in the range provides
both.  If a bounding position `sUp` below `high` exists, the split index is
moreover strictly below `high`. -/
theorem hoarePartition_spec (arr : List Int) (low high : Nat) (pivot : Int)
    (sUp sDn : Nat)
    (hlh : low < high) (hlen : high < arr.length)
    (hu1 : low ≤ sUp) (hu2 : sUp ≤ high) (hu3 : pivot ≤ getv arr sUp)
    (hd1 : low ≤ sDn) (hd2 : sDn ≤ high) (hd3 : getv arr sDn ≤ pivot) :
    ∃ arr' j', hoarePartition arr low high pivot = some (arr', j') ∧
      low ≤ j' ∧ j' ≤ high ∧ (sUp < high → j' < high) ∧
      (∀ k : Nat, low ≤ k → k ≤ j' → getv arr' k ≤ pivot) ∧
      (∀ k : Nat, j' < k → k ≤ high → pivot ≤ getv arr' k) ∧
      subo arr' low (high + 1) ~ subo arr low (high + 1) ∧
      FrameOn arr arr' low high := by
  have hfu : high + 2 - low = (high + 1 - low) + 1 := by omega
  obtain ⟨i₁, si, si1, si2, si3, si4⟩ :=
    scanUp_spec arr low high pivot (high + 2 - low) ((low : Int) - 1) sUp
      (by omega) hu2 hu3 (by omega) (by omega)
  obtain ⟨j₁, sj, sj1, sj2, sj3, sj4⟩ :=
    scanDown_spec arr low high pivot (high + 2 - low) ((high : Int) + 1) sDn
      (by omega) hd1 hd3 (by omega) (by omega)
  rw [hoarePartition, hfu, hoareLoop, si, sj]
  simp only [Option.bind_eq_bind, Option.some_bind, ge_iff_le, Nat.cast_le,
    Int.toNat_natCast, Option.pure_def]
  have hi₁low : low ≤ i₁ := by omega
  have hj₁high : j₁ ≤ high := by omega
  by_cases hex : j₁ ≤ i₁
  · rw [if_pos hex]
    refine ⟨arr, j₁, rfl, by omega, hj₁high, by omega, ?_, ?_, Perm.refl _,
      frameOn_refl _ _ _⟩
    · intro k hk1 hk2
      by_cases hki1 : k < i₁
      · exact le_of_lt (si4 k (by omega) hki1)
      · have : k = j₁ := by omega
        rw [this]
        exact sj3
    · intro k hk1 hk2
      exact le_of_lt (sj4 k hk1 (by omega))
  · rw [if_neg hex]
    have hij₁ : i₁ < j₁ := by omega
    have hi₁len : i₁ < arr.length := by omega
    have hj₁len : j₁ < arr.length := by omega
    have hne : i₁ ≠ j₁ := by omega
    obtain ⟨arr', j', e, p1, p2, pL, pR, pperm, pframe⟩ :=
      hoareLoop_spec low high pivot (high + 1 - low) (listSwap arr i₁ j₁) i₁ j₁
        hi₁low hij₁ hj₁high (by rw [length_listSwap]; exact hlen)
        (by
          intro k hk1 hk2
          by_cases hki : k = i₁
          · subst hki
            rw [getv_listSwap_left arr k j₁ hi₁len hne]
            exact sj3
          · rw [getv_listSwap_other arr i₁ j₁ k (Ne.symm hki) (by omega)]
            exact le_of_lt (si4 k (by omega) (by omega)))
        (by
          intro k hk1 hk2
          by_cases hkj : k = j₁
          · subst hkj
            rw [getv_listSwap_right arr i₁ k hj₁len]
            exact si3
          · rw [getv_listSwap_other arr i₁ j₁ k (by omega) (Ne.symm hkj)]
            exact le_of_lt (sj4 k (by omega) (by omega)))
        (by omega)
    refine ⟨arr', j', e, p1, by omega, by omega, pL, pR, ?_, ?_⟩
    · exact pperm.trans (subo_listSwap_perm arr low (high + 1) i₁ j₁
        (by omega) (by omega) (by omega) (by omega) (by omega))
    · exact frameOn_trans (frameOn_listSwap arr low high i₁ j₁
        (by omega) (by omega) (by omega) (by omega)) pframe

/-! Correctness of `_insertion_sort`. -/

theorem set_last_append (l : List Int) (a v : Int) :
    (l ++ [a]).set l.length v = l ++ [v] := by
  induction l with
  | nil => rfl
  | cons x t ih => simp [ih]

theorem subo_pair (arr : List Int) (lo : Nat) (h : lo + 1 < arr.length) :
    subo arr lo (lo + 2) = [getv arr lo, getv arr (lo + 1)] := by
  rw [subo_append arr lo (lo+1) (lo+2) (by omega) (by omega),
    subo_singleton arr lo (by omega)]
  have : lo + 2 = (lo + 1) + 1 := by omega
  rw [this, subo_singleton arr (lo+1) (by omega)]
  rfl

theorem sorted_last_bound (arr : List Int) (lo hi : Nat) (x : Int)
    (hlen : hi ≤ arr.length) (hlo : lo < hi)
    (hs : List.Sorted (· ≤ ·) (subo arr lo hi))
    (hx : getv arr (hi - 1) ≤ x) :
    ∀ a ∈ subo arr lo hi, a ≤ x := by
  intro a ha
  obtain ⟨k, hk, hka⟩ := List.mem_iff_getElem.mp ha
  rw [length_subo _ _ _ hlen] at hk
  rw [← getv_eq_getElem _ _ (by rw [length_subo _ _ _ hlen]; omega),
    getv_subo _ _ _ _ (by omega)] at hka
  subst hka
  by_cases hk1 : lo + k = hi - 1
  · rw [hk1]; exact hx
  · have := (sorted_subo_iff arr lo hi hlen).mp hs (lo + k) (hi - 1)
      (by omega) (by omega) (by omega)
    omega

theorem shiftIns_spec : ∀ (d : Nat) (arr : List Int) (low : Nat) (temp : Int),
    low + d + 1 < arr.length →
    List.Sorted (· ≤ ·) (subo arr low (low + d + 1)) →
    (shiftIns arr low temp d).length = arr.length ∧
    FrameOn arr (shiftIns arr low temp d) low (low + d + 1) ∧
    subo (shiftIns arr low temp d) low (low + d + 2) =
      pyInsert temp (subo arr low (low + d + 1)) := by
  intro d
  induction d with
  | zero =>
    intro arr low temp hlen hs
    rw [shiftIns]
    have hL : subo arr low (low + 0 + 1) = [getv arr low] :=
      subo_singleton arr low (by omega)
    by_cases hgt : getv arr low > temp
    · rw [if_pos hgt]
      refine ⟨by simp, ⟨by simp, ?_⟩, ?_⟩
      · intro k hk
        rw [getv_set_ne _ _ _ _ (by omega), getv_set_ne _ _ _ _ (by omega)]
      · have e2 : low + 0 + 2 = low + 2 := by omega
        rw [e2, subo_set_in _ _ _ _ _ (by omega) (by omega) (by simpa using (by omega : low + 2 ≤ arr.length)),
          subo_set_in _ _ _ _ _ (by omega) (by omega) (by omega),
          subo_pair arr low (by omega), hL, pyInsert]
        rw [if_pos hgt]
        simp
    · rw [if_neg hgt]
      refine ⟨by simp, ⟨by simp, ?_⟩, ?_⟩
      · intro k hk
        rw [getv_set_ne _ _ _ _ (by omega)]
      · have e2 : low + 0 + 2 = low + 2 := by omega
        rw [e2, subo_set_in _ _ _ _ _ (by omega) (by omega) (by omega),
          subo_pair arr low (by omega), hL, pyInsert]
        rw [if_neg hgt]
        have e3 : low + 1 - low = 1 := by omega
        rw [e3]
        rfl
  | succ d ih =>
    intro arr low temp hlen hs
    have eA : low + (d + 1) + 1 = low + d + 2 := by omega
    have eB : low + (d + 1) + 2 = low + d + 3 := by omega
    rw [eA] at hs hlen
    rw [shiftIns, eA, eB]
    by_cases hgt : getv arr (low + d + 1) > temp
    · rw [if_pos hgt]
      set arr1 := arr.set (low + d + 2) (getv arr (low + d + 1)) with harr1
      have hlen1 : arr1.length = arr.length := by simp [harr1]
      have hsub1 : subo arr1 low (low + d + 1) = subo arr low (low + d + 1) :=
        subo_set_out _ _ _ _ _ (by omega)
      have hs1 : List.Sorted (· ≤ ·) (subo arr1 low (low + d + 1)) := by
        rw [hsub1]
        rw [sorted_subo_iff _ _ _ (by omega)]
        rw [sorted_subo_iff _ _ _ (by omega)] at hs
        intro a b ha hab hb
        exact hs a b ha hab (by omega)
      obtain ⟨ihlen, ihframe, ihsub⟩ := ih arr1 low temp (by omega) hs1
      refine ⟨by rw [ihlen, hlen1], ⟨by rw [ihlen, hlen1], ?_⟩, ?_⟩
      · intro k hk
        rw [ihframe.2 k (by omega), harr1, getv_set_ne _ _ _ _ (by omega)]
      · have dec : subo (shiftIns arr1 low temp d) low (low + d + 3) =
            subo (shiftIns arr1 low temp d) low (low + d + 2) ++
            subo (shiftIns arr1 low temp d) (low + d + 2) (low + d + 3) :=
          subo_append _ _ _ _ (by omega) (by omega)
        rw [dec, ihsub, hsub1]
        have hget : subo (shiftIns arr1 low temp d) (low + d + 2) (low + d + 3) =
            [getv arr (low + d + 1)] := by
          have e := subo_singleton (shiftIns arr1 low temp d) (low + d + 2)
            (by rw [ihlen, hlen1]; omega)
          rw [e, ihframe.2 (low + d + 2) (by omega), harr1,
            getv_set_self _ _ _ (by omega)]
        rw [hget]
        have rhs : subo arr low (low + d + 2) =
            subo arr low (low + d + 1) ++ [getv arr (low + d + 1)] := by
          rw [← subo_singleton arr (low + d + 1) (by omega),
            ← subo_append _ _ _ _ (by omega) (by omega)]
        rw [rhs, pyInsert_append_big temp _ _ (by omega)]
    · rw [if_neg hgt]
      refine ⟨by simp, ⟨by simp, ?_⟩, ?_⟩
      · intro k hk
        rw [getv_set_ne _ _ _ _ (by omega)]
      · have dec : subo arr low (low + d + 3) =
            subo arr low (low + d + 2) ++ [getv arr (low + d + 2)] := by
          rw [← subo_singleton arr (low + d + 2) (by omega),
            ← subo_append _ _ _ _ (by omega) (by omega)]
        rw [subo_set_in _ _ _ _ _ (by omega) (by omega) (by omega), dec]
        have hlength : (subo arr low (low + d + 2)).length = d + 2 := by
          rw [length_subo _ _ _ (by omega)]
          omega
        have e4 : low + d + 2 - low = d + 2 := by omega
        rw [e4, ← hlength, set_last_append]
        rw [pyInsert_all_le temp _ ?_]
        apply sorted_last_bound arr low (low + d + 2) temp (by omega) (by omega) hs
        have e : low + d + 2 - 1 = low + d + 1 := by omega
        rw [e]
        omega

theorem insLoop_spec : ∀ (c : Nat) (arr : List Int) (low i : Nat),
    low < i → i + c ≤ arr.length →
    List.Sorted (· ≤ ·) (subo arr low i) →
    (insLoop arr low c i).length = arr.length ∧
    (∀ k, k < low ∨ i + c ≤ k → getv (insLoop arr low c i) k = getv arr k) ∧
    subo (insLoop arr low c i) low (i + c) ~ subo arr low (i + c) ∧
    List.Sorted (· ≤ ·) (subo (insLoop arr low c i) low (i + c)) := by
  intro c
  induction c with
  | zero =>
    intro arr low i h1 h2 hs
    rw [insLoop]
    exact ⟨rfl, fun k hk => rfl, Perm.refl _, hs⟩
  | succ c ih =>
    intro arr low i h1 h2 hs
    rw [insLoop]
    have hd : low + (i - 1 - low) + 1 = i := by omega
    have hd2 : low + (i - 1 - low) + 2 = i + 1 := by omega
    obtain ⟨slen, sframe, ssub⟩ := shiftIns_spec (i - 1 - low) arr low (getv arr i)
      (by omega) (by rw [hd]; exact hs)
    rw [hd] at sframe
    rw [hd2, hd] at ssub
    set arr1 := shiftIns arr low (getv arr i) (i - 1 - low) with harr1
    have hs1 : List.Sorted (· ≤ ·) (subo arr1 low (i + 1)) := by
      rw [ssub]
      exact pyInsert_sorted _ hs
    obtain ⟨ilen, iframe, iperm, isort⟩ := ih arr1 low (i + 1) (by omega)
      (by rw [slen]; omega) hs1
    have e : i + 1 + c = i + (c + 1) := by omega
    rw [e] at iframe iperm isort
    refine ⟨by rw [ilen, slen], ?_, ?_, isort⟩
    · intro k hk
      rw [iframe k (by omega), sframe.2 k (by omega)]
    · have dec1 : subo arr1 low (i + (c+1)) =
          subo arr1 low (i + 1) ++ subo arr1 (i + 1) (i + (c+1)) :=
        subo_append _ _ _ _ (by omega) (by omega)
      have hf : FrameOn arr arr1 low i := ⟨slen, sframe.2⟩
      have dec2 : subo arr1 (i + 1) (i + (c+1)) = subo arr (i + 1) (i + (c+1)) :=
        subo_eq_of_frame_right _ _ hf (by omega)
      have dec3 : subo arr low (i + (c+1)) =
          subo arr low (i + 1) ++ subo arr (i + 1) (i + (c+1)) :=
        subo_append _ _ _ _ (by omega) (by omega)
      have dec4 : subo arr low (i + 1) = subo arr low i ++ [getv arr i] := by
        rw [← subo_singleton arr i (by omega),
          ← subo_append _ _ _ _ (by omega) (by omega)]
      refine iperm.trans ?_
      rw [dec1, dec2, dec3, ssub, dec4]
      apply Perm.append_right
      exact (pyInsert_perm _ _).trans (List.perm_append_singleton _ _).symm

/-- Full specification of `_insertion_sort` on `[low, high]`: it returns a
buffer of the same length, only `[low, high]` is touched, and that range
becomes a sorted permutation of its old content. -/
theorem insertion_sort_spec (arr : List Int) (low high : Nat)
    (h1 : low ≤ high) (h2 : high < arr.length) :
    (insertion_sort arr low high).length = arr.length ∧
    FrameOn arr (insertion_sort arr low high) low high ∧
    subo (insertion_sort arr low high) low (high + 1) ~ subo arr low (high + 1) ∧
    List.Sorted (· ≤ ·) (subo (insertion_sort arr low high) low (high + 1)) := by
  have e : (low + 1) + (high - low) = high + 1 := by omega
  obtain ⟨l1, l2, l3, l4⟩ := insLoop_spec (high - low) arr low (low + 1)
    (by omega) (by omega)
    (by rw [subo_singleton arr low (by omega)]; simp)
  rw [e] at l2 l3 l4
  exact ⟨l1, ⟨l1, fun k hk => l2 k (by omega)⟩, l3, l4⟩

/-! Correctness of the heap sorts.  Heap indices are relative to the
offset `l`; children of node `p` are `2p+1` and `2p+2`. -/

/-- Node `k` lies in the subtree rooted at `i`. -/
inductive Desc : Nat → Nat → Prop
  | refl (i : Nat) : Desc i i
  | left {i k : Nat} : Desc i k → Desc i (2*k+1)
  | right {i k : Nat} : Desc i k → Desc i (2*k+2)

theorem Desc.le {i k : Nat} (h : Desc i k) : i ≤ k := by
  induction h with
  | refl => exact le_refl _
  | left _ ih => omega
  | right _ ih => omega

theorem Desc.eq_or_ge {i k : Nat} (h : Desc i k) : k = i ∨ 2*i + 1 ≤ k := by
  induction h with
  | refl => exact Or.inl rfl
  | left h ih => have := h.le; omega
  | right h ih => have := h.le; omega

theorem Desc.trans {i j k : Nat} (h1 : Desc i j) (h2 : Desc j k) : Desc i k := by
  induction h2 with
  | refl => exact h1
  | left _ ih => exact ih.left
  | right _ ih => exact ih.right

/-- The max-heap property over the first `n` nodes at offset `l`, demanded
of every parent index `≥ m`. -/
def HeapFrom (arr : List Int) (l n m : Nat) : Prop :=
  ∀ p c : Nat, m ≤ p → c < n → (c = 2*p + 1 ∨ c = 2*p + 2) →
    getv arr (l + c) ≤ getv arr (l + p)

theorem heapFrom_mono {arr : List Int} {l n m m' : Nat}
    (h : HeapFrom arr l n m) (hm : m ≤ m') : HeapFrom arr l n m' :=
  fun p c hp hc hch => h p c (by omega) hc hch

/-- In a heap, every node of a subtree is bounded by the subtree root. -/
theorem heap_desc_bound {arr : List Int} {l n m : Nat}
    (h : HeapFrom arr l n m) {c k : Nat} (hc : m ≤ c) (hk : Desc c k)
    (hkn : k < n) : getv arr (l + k) ≤ getv arr (l + c) := by
  induction hk with
  | refl => exact le_refl _
  | left hd ih =>
    rename_i k'
    have h1 : getv arr (l + (2*k' + 1)) ≤ getv arr (l + k') :=
      h k' (2*k' + 1) (by have := hd.le; omega) hkn (Or.inl rfl)
    have h2 := ih (by omega)
    omega
  | right hd ih =>
    rename_i k'
    have h1 : getv arr (l + (2*k' + 2)) ≤ getv arr (l + k') :=
      h k' (2*k' + 2) (by have := hd.le; omega) hkn (Or.inr rfl)
    have h2 := ih (by omega)
    omega

/-- The root of a heap is the maximum of the region. -/
theorem heap_root_max {arr : List Int} {l n : Nat}
    (h : HeapFrom arr l n 0) : ∀ k, k < n → getv arr (l + k) ≤ getv arr l := by
  intro k
  induction k using Nat.strong_induction_on with
  | _ k ih =>
    intro hk
    cases k with
    | zero => simp
    | succ k' =>
      have hp : (k' + 1) = 2 * (k' / 2) + 1 ∨ (k' + 1) = 2 * (k' / 2) + 2 := by omega
      have h1 : getv arr (l + (k' + 1)) ≤ getv arr (l + k' / 2) :=
        h (k' / 2) (k' + 1) (by omega) hk hp
      have h2 := ih (k' / 2) (by omega) (by omega)
      omega

/-- Postcondition of one sift at node `i`: same length, untouched outside
the region and outside the subtree of `i`, a permutation of the region,
heap property from `i`, and no new values entering the subtree of `i`. -/
def SiftPost (arr res : List Int) (l n i : Nat) : Prop :=
  res.length = arr.length ∧
  (∀ k, k < l ∨ l + n ≤ k → getv res k = getv arr k) ∧
  (∀ k, k < n → ¬ Desc i k → getv res (l + k) = getv arr (l + k)) ∧
  subo res l (l + n) ~ subo arr l (l + n) ∧
  HeapFrom res l n i ∧
  (∀ B : Int, (∀ k, k < n → Desc i k → getv arr (l + k) ≤ B) →
    ∀ k, k < n → Desc i k → getv res (l + k) ≤ B)

theorem not_desc_sibling {i c d : Nat} (hc : c = 2*i + 1 ∨ c = 2*i + 2)
    (hd : d = 2*i + 1 ∨ d = 2*i + 2) (hne : c ≠ d) : ¬ Desc c d := by
  intro h
  rcases h.eq_or_ge with h1 | h1 <;> omega

/-- The recursive case of the sift specification: node `i` swaps with its
largest child `c` and sifting continues at `c`. -/
theorem siftOff_step (l n : Nat) (fuel : Nat)
    (IH : ∀ (arr : List Int) (i : Nat), i < n → n - i ≤ fuel →
      l + n ≤ arr.length → HeapFrom arr l n (i+1) →
      SiftPost arr (siftOff arr l n fuel i) l n i)
    (arr : List Int) (i c : Nat)
    (hc : c = 2*i + 1 ∨ c = 2*i + 2) (hcn : c < n)
    (hfu : n - i ≤ fuel + 1) (hlen : l + n ≤ arr.length)
    (hH : HeapFrom arr l n (i+1))
    (F2 : getv arr (l + i) ≤ getv arr (l + c))
    (F3 : ∀ cc, (cc = 2*i + 1 ∨ cc = 2*i + 2) → cc < n →
      getv arr (l + cc) ≤ getv arr (l + c)) :
    SiftPost arr (siftOff (listSwap arr (l + i) (l + c)) l n fuel c) l n i := by
  have hic : i < c := by omega
  have hin : i < n := by omega
  have hlic : l + i < arr.length := by omega
  have hlcc : l + c < arr.length := by omega
  have hlne : l + i ≠ l + c := by omega
  set arr1 := listSwap arr (l + i) (l + c) with harr1
  have hlen1 : arr1.length = arr.length := length_listSwap _ _ _
  have hv_i : getv arr1 (l + i) = getv arr (l + c) :=
    getv_listSwap_left _ _ _ hlic hlne
  have hv_c : getv arr1 (l + c) = getv arr (l + i) :=
    getv_listSwap_right _ _ _ hlcc
  have hv_other : ∀ k, k ≠ l + i → k ≠ l + c → getv arr1 k = getv arr k :=
    fun k h1 h2 => getv_listSwap_other _ _ _ _ (Ne.symm h1) (Ne.symm h2)
  have hH1 : HeapFrom arr1 l n (c + 1) := by
    intro p cc hp hcc hch
    have hp1 : l + p ≠ l + i := by omega
    have hp2 : l + p ≠ l + c := by omega
    have hc1 : l + cc ≠ l + i := by omega
    have hc2 : l + cc ≠ l + c := by omega
    rw [hv_other _ hp1 hp2, hv_other _ hc1 hc2]
    exact hH p cc (by omega) hcc hch
  obtain ⟨plen, pregion, psub, pperm, pheap, pbound⟩ :=
    IH arr1 c hcn (by omega) (by omega) hH1
  have hdic : Desc i c := by
    rcases hc with h | h
    · rw [h]; exact (Desc.refl i).left
    · rw [h]; exact (Desc.refl i).right
  -- values of the subtree of c in arr1 are bounded by the old child value
  have hsubtree_bound : ∀ k, k < n → Desc c k →
      getv arr1 (l + k) ≤ getv arr (l + c) := by
    intro k hk hdk
    rcases hdk.eq_or_ge with h | h
    · subst h
      rw [hv_c]
      exact F2
    · have hki : l + k ≠ l + i := by omega
      have hkc : l + k ≠ l + c := by have := hdk.le; omega
      rw [hv_other _ hki hkc]
      exact heap_desc_bound hH (by omega) hdk hk
  refine ⟨by rw [plen, hlen1], ?_, ?_, ?_, ?_, ?_⟩
  · intro k hk
    rw [pregion k hk, hv_other k (by omega) (by omega)]
  · intro k hk hdk
    have hki : k ≠ i := fun h => hdk (h ▸ Desc.refl i)
    have hkc : ¬ Desc c k := fun h => hdk (hdic.trans h)
    have hkc' : k ≠ c := fun h => hkc (h ▸ Desc.refl c)
    rw [psub k hk hkc, hv_other _ (by omega) (by omega)]
  · exact pperm.trans (subo_listSwap_perm arr l (l + n) (l + i) (l + c)
      (by omega) (by omega) (by omega) (by omega) (by omega))
  · -- heap property from i
    have hres_i : getv (siftOff arr1 l n fuel c) (l + i) = getv arr (l + c) := by
      rw [psub i hin (fun h => absurd h.le (by omega)), hv_i]
    intro p cc hp hcc hch
    by_cases hpc : c ≤ p
    · exact pheap p cc hpc hcc hch
    · have hpi : p = i ∨ (i < p ∧ p < c) := by omega
      rcases hpi with hpi | hpi
      · subst hpi
        by_cases hccc : cc = c
        · subst hccc
          rw [hres_i]
          exact pbound (getv arr (l + cc)) hsubtree_bound cc hcc (Desc.refl cc)
        · have hnd : ¬ Desc c cc := not_desc_sibling hc hch (Ne.symm hccc)
          rw [hres_i, psub cc hcc hnd,
            hv_other _ (by omega) (by omega)]
          exact F3 cc hch hcc
      · have hndp : ¬ Desc c p := fun h => absurd h.le (by omega)
        have hndc : ¬ Desc c cc := by
          intro h
          rcases h.eq_or_ge with h1 | h1 <;> omega
        rw [psub p (by omega) hndp, psub cc hcc hndc,
          hv_other _ (by omega) (by omega), hv_other _ (by omega) (by omega)]
        exact hH p cc (by omega) hcc hch
  · -- no value above the old subtree bound enters the subtree of i
    intro B hB k hk hdk
    by_cases hdc : Desc c k
    · refine pbound B ?_ k hk hdc
      intro k' hk' hdk'
      rcases hdk'.eq_or_ge with h | h
      · subst h
        rw [hv_c]
        exact hB i hin (Desc.refl i)
      · rw [hv_other _ (by omega) (by have := hdk'.le; omega)]
        exact hB k' hk' (hdic.trans hdk')
    · rw [psub k hk hdc]
      by_cases hki : k = i
      · subst hki
        rw [hv_i]
        exact hB c hcn hdic
      · have hkc : k ≠ c := fun h => hdc (h ▸ Desc.refl c)
        rw [hv_other _ (by omega) (by omega)]
        exact hB k hk hdk

/-- Unfolding of one sift step: the selected index `c` is the largest of
node `i` and its in-range children, and the step either stops (`c = i`) or
swaps and continues at `c`. -/
theorem siftOff_eq_cases (arr : List Int) (l n fuel i : Nat) :
    ∃ c, (c = i ∨ ((c = 2*i + 1 ∨ c = 2*i + 2) ∧ c < n)) ∧
      getv arr (l + i) ≤ getv arr (l + c) ∧
      (∀ cc, (cc = 2*i + 1 ∨ cc = 2*i + 2) → cc < n →
        getv arr (l + cc) ≤ getv arr (l + c)) ∧
      (c = i → siftOff arr l n (fuel+1) i = arr) ∧
      (c ≠ i → siftOff arr l n (fuel+1) i =
        siftOff (listSwap arr (l + i) (l + c)) l n fuel c) := by
  have e : 2*i + 1 + 1 = 2*i + 2 := by omega
  by_cases hL : 2*i + 1 < n ∧ getv arr (l + i) < getv arr (l + (2*i + 1))
  · by_cases hR : 2*i + 1 + 1 < n ∧
        getv arr (l + (2*i + 1)) < getv arr (l + (2*i + 1 + 1))
    · refine ⟨2*i + 1 + 1, Or.inr ⟨Or.inr (by omega), by omega⟩,
        le_of_lt (hL.2.trans hR.2), ?_, fun h => absurd h (by omega), fun _ => ?_⟩
      · intro cc hcc hccn
        rcases hcc with h | h <;> subst h
        · exact le_of_lt hR.2
        · rw [← e]
      · simp only [siftOff, gt_iff_lt]
        rw [if_pos hL, if_pos hR, if_neg (by omega : ¬ 2*i + 1 + 1 = i)]
    · refine ⟨2*i + 1, Or.inr ⟨Or.inl rfl, hL.1⟩, le_of_lt hL.2, ?_,
        fun h => absurd h (by omega), fun _ => ?_⟩
      · intro cc hcc hccn
        rcases hcc with h | h <;> subst h
        · exact le_refl _
        · rw [← e] at hccn ⊢
          rcases not_and_or.mp hR with h | h
          · omega
          · omega
      · simp only [siftOff, gt_iff_lt]
        rw [if_pos hL, if_neg hR, if_neg (by omega : ¬ 2*i + 1 = i)]
  · by_cases hR : 2*i + 1 + 1 < n ∧ getv arr (l + i) < getv arr (l + (2*i + 1 + 1))
    · refine ⟨2*i + 1 + 1, Or.inr ⟨Or.inr (by omega), by omega⟩,
        le_of_lt hR.2, ?_, fun h => absurd h (by omega), fun _ => ?_⟩
      · intro cc hcc hccn
        rcases hcc with h | h <;> subst h
        · rcases not_and_or.mp hL with h | h
          · omega
          · have h1 : getv arr (l + (2*i + 1)) ≤ getv arr (l + i) := by omega
            exact h1.trans (le_of_lt hR.2)
        · rw [← e]
      · simp only [siftOff, gt_iff_lt]
        rw [if_neg hL, if_pos hR, if_neg (by omega : ¬ 2*i + 1 + 1 = i)]
    · refine ⟨i, Or.inl rfl, le_refl _, ?_, fun _ => ?_, fun h => absurd rfl h⟩
      · intro cc hcc hccn
        rcases hcc with h | h <;> subst h
        · rcases not_and_or.mp hL with h | h
          · omega
          · omega
        · rw [← e] at hccn ⊢
          rcases not_and_or.mp hR with h | h
          · omega
          · omega
      · simp only [siftOff, gt_iff_lt]
        rw [if_neg hL, if_neg hR, if_pos rfl]

theorem siftOff_spec (l n : Nat) : ∀ (fuel : Nat) (arr : List Int) (i : Nat),
    i < n → n - i ≤ fuel → l + n ≤ arr.length → HeapFrom arr l n (i+1) →
    SiftPost arr (siftOff arr l n fuel i) l n i := by
  intro fuel
  induction fuel with
  | zero =>
    intro arr i h1 h2 _ _
    exfalso
    omega
  | succ fuel ih =>
    intro arr i h1 h2 hlen hH
    obtain ⟨c, hcmem, F2, F3, heqi, heqr⟩ := siftOff_eq_cases arr l n fuel i
    by_cases hci : c = i
    · rw [heqi hci]
      rw [hci] at F3
      refine ⟨rfl, fun k _ => rfl, fun k _ _ => rfl, Perm.refl _, ?_,
        fun B hB k hk hd => hB k hk hd⟩
      intro p cc hp hcc hch
      by_cases hpi : p = i
      · subst hpi
        exact F3 cc hch hcc
      · exact hH p cc (by omega) hcc hch
    · rw [heqr hci]
      have hc2 : (c = 2*i + 1 ∨ c = 2*i + 2) ∧ c < n := hcmem.resolve_left hci
      exact siftOff_step l n fuel ih arr i c hc2.1 hc2.2 h2 hlen hH F2 F3

theorem subo_eq_of_getv {arr arr' : List Int} (lo hi : Nat)
    (hlen : arr'.length = arr.length)
    (h : ∀ k, lo ≤ k → k < hi → getv arr' k = getv arr k) :
    subo arr' lo hi = subo arr lo hi := by
  apply List.ext_getElem?
  intro n
  rw [getElem?_subo, getElem?_subo]
  split
  · exact getElem?_eq_of_getv _ _ _ hlen (h _ (by omega) (by omega))
  · rfl

theorem mem_subo (arr : List Int) (lo hi : Nat) (hhi : hi ≤ arr.length) (x : Int) :
    x ∈ subo arr lo hi ↔ ∃ m, lo ≤ m ∧ m < hi ∧ getv arr m = x := by
  constructor
  · intro hx
    obtain ⟨k, hk, hka⟩ := List.mem_iff_getElem.mp hx
    rw [length_subo _ _ _ hhi] at hk
    refine ⟨lo + k, by omega, by omega, ?_⟩
    rw [← getv_subo arr lo hi k (by omega),
      getv_eq_getElem _ _ (by rw [length_subo _ _ _ hhi]; omega)]
    exact hka
  · rintro ⟨m, hm1, hm2, hmx⟩
    have h1 : getv (subo arr lo hi) (m - lo) = getv arr m := by
      rw [getv_subo arr lo hi (m - lo) (by omega)]
      congr 1
      omega
    rw [← hmx, ← h1, getv_eq_getElem _ _ (by rw [length_subo _ _ _ hhi]; omega)]
    exact List.getElem_mem _

theorem subo_perm_extend {arr arr' : List Int} (lo mid hi : Nat)
    (hlen : arr'.length = arr.length) (hm1 : lo ≤ mid) (hm2 : mid ≤ hi)
    (hperm : subo arr' lo mid ~ subo arr lo mid)
    (heq : ∀ k, mid ≤ k → k < hi → getv arr' k = getv arr k) :
    subo arr' lo hi ~ subo arr lo hi := by
  rw [subo_append arr' lo mid hi hm1 hm2, subo_append arr lo mid hi hm1 hm2,
    subo_eq_of_getv mid hi hlen heq]
  exact hperm.append_right _

/-- Parents at or above `n / 2` have no children inside the region, so the
heap property below them holds vacuously. -/
theorem heapFrom_init (arr : List Int) (l n : Nat) : HeapFrom arr l n (n / 2) :=
  fun p c hp hc hch => absurd hc (by omega)

theorem heapRangeBuild_spec (l n : Nat) : ∀ (c : Nat) (arr : List Int),
    c ≤ n → l + n ≤ arr.length → HeapFrom arr l n c →
    (heapRangeBuild arr l n c).length = arr.length ∧
    (∀ k, k < l ∨ l + n ≤ k → getv (heapRangeBuild arr l n c) k = getv arr k) ∧
    subo (heapRangeBuild arr l n c) l (l + n) ~ subo arr l (l + n) ∧
    HeapFrom (heapRangeBuild arr l n c) l n 0 := by
  intro c
  induction c with
  | zero =>
    intro arr h1 h2 hH
    rw [heapRangeBuild]
    exact ⟨rfl, fun k _ => rfl, Perm.refl _, hH⟩
  | succ c ih =>
    intro arr h1 h2 hH
    rw [heapRangeBuild]
    obtain ⟨slen, sregion, ssubtree, sperm, sheap, sbound⟩ :=
      siftOff_spec l n n arr c (by omega) (by omega) h2 hH
    obtain ⟨blen, bregion, bperm, bheap⟩ := ih (siftOff arr l n n c) (by omega)
      (by rw [slen]; exact h2) sheap
    refine ⟨blen.trans slen, ?_, bperm.trans sperm, bheap⟩
    intro k hk
    rw [bregion k hk, sregion k hk]

theorem heapRangeExtract_spec (l n0 : Nat) : ∀ (e : Nat) (arr : List Int),
    e < n0 → l + n0 ≤ arr.length →
    HeapFrom arr l (e+1) 0 →
    (∀ k1 k2, e < k1 → k1 ≤ k2 → k2 < n0 → getv arr (l+k1) ≤ getv arr (l+k2)) →
    (∀ k k', k ≤ e → e < k' → k' < n0 → getv arr (l+k) ≤ getv arr (l+k')) →
    (heapRangeExtract arr l e).length = arr.length ∧
    (∀ k, k < l ∨ l + n0 ≤ k → getv (heapRangeExtract arr l e) k = getv arr k) ∧
    subo (heapRangeExtract arr l e) l (l + n0) ~ subo arr l (l + n0) ∧
    (∀ k1 k2, k1 ≤ k2 → k2 < n0 →
      getv (heapRangeExtract arr l e) (l+k1) ≤ getv (heapRangeExtract arr l e) (l+k2)) := by
  intro e
  induction e with
  | zero =>
    intro arr h1 h2 hH htail hsep
    rw [heapRangeExtract]
    refine ⟨rfl, fun k _ => rfl, Perm.refl _, ?_⟩
    intro k1 k2 hk12 hk2
    rcases Nat.lt_or_ge 0 k1 with h | h
    · exact htail k1 k2 h hk12 hk2
    · have hk10 : k1 = 0 := by omega
      subst hk10
      rcases Nat.lt_or_ge 0 k2 with h | h
      · exact hsep 0 k2 (le_refl 0) h hk2
      · have : k2 = 0 := by omega
        subst this
        exact le_refl _
  | succ e ih =>
    intro arr h1 h2 hH htail hsep
    rw [heapRangeExtract]
    have hllen : l < arr.length := by omega
    have hle1len : l + (e+1) < arr.length := by omega
    have hlne : l ≠ l + (e+1) := by omega
    set arr2 := listSwap arr l (l + (e+1)) with harr2
    have hlen2 : arr2.length = arr.length := length_listSwap _ _ _
    have hmax : ∀ k, k < e + 2 → getv arr (l + k) ≤ getv arr l := heap_root_max hH
    have hv_root : getv arr2 l = getv arr (l + (e+1)) := by
      have := getv_listSwap_left arr l (l + (e+1)) hllen hlne
      simpa using this
    have hv_top : getv arr2 (l + (e+1)) = getv arr l := by
      have := getv_listSwap_right arr l (l + (e+1)) hle1len
      simpa using this
    have hv_other : ∀ k, k ≠ l → k ≠ l + (e+1) → getv arr2 k = getv arr k :=
      fun k hk1 hk2 => getv_listSwap_other _ _ _ _ (Ne.symm hk1) (Ne.symm hk2)
    have hH2 : HeapFrom arr2 l (e+1) 1 := by
      intro p cc hp hcc hch
      rw [hv_other (l + p) (by omega) (by omega),
        hv_other (l + cc) (by omega) (by omega)]
      exact hH p cc (by omega) (by omega) hch
    obtain ⟨slen, sregion, ssubtree, sperm, sheap, sbound⟩ :=
      siftOff_spec l (e+1) (e+1) arr2 0 (by omega) (by omega) (by omega) hH2
    set arr3 := siftOff arr2 l (e+1) (e+1) 0 with harr3
    have hlen3 : arr3.length = arr.length := slen.trans hlen2
    -- facts about arr2 ordering
    have harr2_tail : ∀ k1 k2, e < k1 → k1 ≤ k2 → k2 < n0 →
        getv arr2 (l+k1) ≤ getv arr2 (l+k2) := by
      intro k1 k2 hk1 hk12 hk2
      by_cases h1e : k1 = e + 1
      · subst h1e
        rw [hv_top]
        by_cases h2e : k2 = e + 1
        · subst h2e
          rw [hv_top]
        · rw [hv_other (l + k2) (by omega) (by omega)]
          have := hsep 0 k2 (by omega) (by omega) hk2
          simpa using this
      · rw [hv_other (l + k1) (by omega) (by omega),
          hv_other (l + k2) (by omega) (by omega)]
        exact htail k1 k2 (by omega) hk12 hk2
    have harr2_sep : ∀ mk k', mk ≤ e → e < k' → k' < n0 →
        getv arr2 (l+mk) ≤ getv arr2 (l+k') := by
      intro mk k' hmk hk' hk'2
      by_cases hmk0 : mk = 0
      · subst hmk0
        have e0 : l + 0 = l := by omega
        rw [e0, hv_root]
        by_cases h2e : k' = e + 1
        · subst h2e
          rw [hv_top]
          exact hmax (e+1) (by omega)
        · rw [hv_other (l + k') (by omega) (by omega)]
          exact hsep (e+1) k' (le_refl _) (by omega) hk'2
      · rw [hv_other (l + mk) (by omega) (by omega)]
        by_cases h2e : k' = e + 1
        · subst h2e
          rw [hv_top]
          exact hmax mk (by omega)
        · rw [hv_other (l + k') (by omega) (by omega)]
          exact hsep mk k' (by omega) (by omega) hk'2
    obtain ⟨rlen, rregion, rperm, rsort⟩ := ih arr3 (by omega) (by omega)
      sheap
      (by
        intro k1 k2 hk1 hk12 hk2
        rw [sregion (l + k1) (by omega), sregion (l + k2) (by omega)]
        exact harr2_tail k1 k2 (by omega) hk12 hk2)
      (by
        intro k k' hk hk' hk'2
        rw [sregion (l + k') (by omega)]
        have hmem : getv arr3 (l + k) ∈ subo arr3 l (l + (e+1)) := by
          rw [mem_subo arr3 l (l + (e+1)) (by omega) _]
          exact ⟨l + k, by omega, by omega, rfl⟩
        rw [sperm.mem_iff, mem_subo arr2 l (l + (e+1)) (by omega)] at hmem
        obtain ⟨m, hm1, hm2, hmx⟩ := hmem
        rw [← hmx]
        have em : m = l + (m - l) := by omega
        rw [em]
        exact harr2_sep (m - l) k' (by omega) (by omega) hk'2)
    refine ⟨rlen.trans hlen3, ?_, ?_, rsort⟩
    · intro k hk
      rw [rregion k hk, sregion k (by omega), hv_other k (by omega) (by omega)]
    · refine (rperm.trans ?_).trans
        (subo_listSwap_perm arr l (l + n0) l (l + (e+1))
          (le_refl l) (by omega) (by omega) (by omega) (by omega))
      exact subo_perm_extend l (l + (e+1)) (l + n0) slen (by omega) (by omega)
        sperm (fun k hk1 hk2 => sregion k (by omega))

/-- Full specification of `_heapsort_partial` on `[low, high]`. -/
theorem heapsortRange_spec (arr : List Int) (low high : Nat)
    (h1 : low ≤ high) (h2 : high < arr.length) :
    (heapsortRange arr low high).length = arr.length ∧
    FrameOn arr (heapsortRange arr low high) low high ∧
    subo (heapsortRange arr low high) low (high+1) ~ subo arr low (high+1) ∧
    List.Sorted (· ≤ ·) (subo (heapsortRange arr low high) low (high+1)) := by
  have hres : heapsortRange arr low high =
      heapRangeExtract
        (heapRangeBuild arr low (high - low + 1) ((high - low + 1)/2))
        low (high - low + 1 - 1) := rfl
  set n := high - low + 1 with hn
  have hln : low + n = high + 1 := by omega
  obtain ⟨blen, bregion, bperm, bheap⟩ := heapRangeBuild_spec low n (n/2) arr
    (by omega) (by omega) (heapFrom_init arr low n)
  set arrB := heapRangeBuild arr low n (n/2) with harrB
  have hBheap : HeapFrom arrB low ((n - 1) + 1) 0 := by
    have e : (n - 1) + 1 = n := by omega
    rw [e]
    exact bheap
  obtain ⟨elen, eregion, eperm, esort⟩ := heapRangeExtract_spec low n (n - 1) arrB
    (by omega) (by rw [blen]; omega) hBheap
    (fun k1 k2 hk1 hk12 hk2 => absurd hk2 (by omega))
    (fun k k' hk hk' hk'2 => absurd hk'2 (by omega))
  rw [hres]
  have hlenf : (heapRangeExtract arrB low (n - 1)).length = arr.length :=
    elen.trans blen
  refine ⟨hlenf, ⟨hlenf, ?_⟩, ?_, ?_⟩
  · intro k hk
    rw [eregion k (by omega), bregion k (by omega)]
  · rw [← hln]
    exact eperm.trans bperm
  · rw [sorted_subo_iff _ _ _ (by omega)]
    intro a b ha hab hb
    have := esort (a - low) (b - low) (by omega) (by omega)
    have e1 : low + (a - low) = a := by omega
    have e2 : low + (b - low) = b := by omega
    rw [e1, e2] at this
    exact this

/-- `_sift_down` is the offset-0 instance of the local `sift` of
`_heapsort_partial`. -/
theorem sift_down_eq : ∀ (fuel : Nat) (arr : List Int) (n i : Nat),
    sift_down arr n fuel i = siftOff arr 0 n fuel i := by
  intro fuel
  induction fuel with
  | zero => intro arr n i; rfl
  | succ fuel ih =>
    intro arr n i
    simp only [sift_down, siftOff, Nat.zero_add, ih]

theorem heapsortBuild_eq : ∀ (c : Nat) (arr : List Int) (n : Nat),
    heapsortBuild arr n c = heapRangeBuild arr 0 n c := by
  intro c
  induction c with
  | zero => intro arr n; rfl
  | succ c ih =>
    intro arr n
    rw [heapsortBuild, heapRangeBuild, sift_down_eq, ih]

theorem heapsortExtract_eq : ∀ (e : Nat) (arr : List Int),
    heapsortExtract arr e = heapRangeExtract arr 0 e := by
  intro e
  induction e with
  | zero => intro arr; rfl
  | succ e ih =>
    intro arr
    rw [heapsortExtract, heapRangeExtract, sift_down_eq, ih]
    simp only [Nat.zero_add]

theorem heapsort_eq_range (arr : List Int) (h : 1 ≤ arr.length) :
    heapsort arr = heapsortRange arr 0 (arr.length - 1) := by
  have hn : arr.length - 1 - 0 + 1 = arr.length := by omega
  rw [heapsort, heapsortRange, hn, heapsortBuild_eq, heapsortExtract_eq]

/-- `heapsort` returns a sorted permutation of its input. -/
theorem heapsort_perm_sorted (arr : List Int) :
    heapsort arr ~ arr ∧ List.Sorted (· ≤ ·) (heapsort arr) := by
  rcases Nat.eq_zero_or_pos arr.length with h0 | h0
  · have : arr = [] := List.length_eq_zero.mp h0
    subst this
    exact ⟨Perm.refl _, by decide⟩
  · rw [heapsort_eq_range arr (by omega)]
    obtain ⟨hlen, hframe, hperm, hsort⟩ :=
      heapsortRange_spec arr 0 (arr.length - 1) (by omega) (by omega)
    have e1 : arr.length - 1 + 1 = arr.length := by omega
    rw [e1] at hperm hsort
    have e2 : subo (heapsortRange arr 0 (arr.length - 1)) 0 arr.length =
        heapsortRange arr 0 (arr.length - 1) := by
      have h := subo_zero_length (heapsortRange arr 0 (arr.length - 1))
      rwa [hlen] at h
    have e3 : subo arr 0 arr.length = arr := subo_zero_length arr
    rw [e2, e3] at hperm
    rw [e2] at hsort
    exact ⟨hperm, hsort⟩

/-! The median-of-ninthers pivot. -/

/-- Modelled from the spec (§4.1): the true median of three values. -/
def median3 (a b c : Int) : Int := max (min a b) (min (max a b) c)

/-- Modelled from the spec (§4.1): median of the three group medians over
the nine samples `arr[low + i*step]`, `step = max(size // 9, 1)`. -/
def nintherSpec (arr : List Int) (low high : Nat) : Int :=
  let step := max ((high - low + 1) / 9) 1
  let s := fun i : Nat => getv arr (low + i * step)
  median3 (median3 (s 0) (s 1) (s 2)) (median3 (s 3) (s 4) (s 5))
    (median3 (s 6) (s 7) (s 8))

theorem getv_sortPy3 (a b c : Int) : getv (sortPy [a, b, c]) 1 = median3 a b c := by
  simp only [sortPy, pyInsert, median3]
  split_ifs <;> simp only [pyInsert] <;> split_ifs <;>
    simp only [getv_cons_succ, getv_cons_zero] <;> omega

theorem mem_sortPy3 (x a b c : Int) (h : getv (sortPy [a, b, c]) 1 = x) :
    x = a ∨ x = b ∨ x = c := by
  rw [getv_sortPy3] at h
  rw [median3] at h
  rcases le_total a b with hab | hab <;> rcases le_total b c with hbc | hbc <;>
    rcases le_total a c with hac | hac <;> omega

/-- The ninthers pivot of a large enough range is a value stored strictly
before `high`. -/
theorem median_of_ninthers_mem (arr : List Int) (low high : Nat)
    (hsize : 10 ≤ high - low + 1) :
    ∃ s : Nat, low ≤ s ∧ s + 1 ≤ high ∧
      getv arr s = median_of_ninthers arr low high := by
  have h9 : ¬ high - low + 1 < 9 := by omega
  set step := max ((high - low + 1) / 9) 1 with hstep
  have hunf : median_of_ninthers arr low high =
      getv (sortPy (((List.range' 0 3 3).map fun i =>
        sortPy ((((List.range 9).map fun i =>
          getv arr (low + i * step)).drop i).take 3)).map fun g => getv g 1)) 1 := by
    simp only [median_of_ninthers, ← hstep]
    rw [if_neg h9]
  have hmed : (((List.range' 0 3 3).map fun i =>
      sortPy ((((List.range 9).map fun i =>
        getv arr (low + i * step)).drop i).take 3)).map fun g => getv g 1) =
      [getv (sortPy [getv arr (low + 0 * step), getv arr (low + 1 * step),
        getv arr (low + 2 * step)]) 1,
       getv (sortPy [getv arr (low + 3 * step), getv arr (low + 4 * step),
        getv arr (low + 5 * step)]) 1,
       getv (sortPy [getv arr (low + 6 * step), getv arr (low + 7 * step),
        getv arr (low + 8 * step)]) 1] := rfl
  have hpiv : median_of_ninthers arr low high =
      getv (sortPy
        [getv (sortPy [getv arr (low + 0 * step), getv arr (low + 1 * step),
          getv arr (low + 2 * step)]) 1,
         getv (sortPy [getv arr (low + 3 * step), getv arr (low + 4 * step),
          getv arr (low + 5 * step)]) 1,
         getv (sortPy [getv arr (low + 6 * step), getv arr (low + 7 * step),
          getv arr (low + 8 * step)]) 1]) 1 :=
    hunf.trans (congrArg (fun L => getv (sortPy L) 1) hmed)
  have hbound : ∀ m : Nat, m ≤ 8 → low + m * step + 1 ≤ high := by
    intro m hm
    have hs9 : 9 * ((high - low + 1) / 9) ≤ high - low + 1 := by omega
    have hms : m * step ≤ 8 * step := Nat.mul_le_mul_right _ hm
    omega
  have wit : ∀ m : Nat, m ≤ 8 →
      median_of_ninthers arr low high = getv arr (low + m * step) →
      ∃ s : Nat, low ≤ s ∧ s + 1 ≤ high ∧
        getv arr s = median_of_ninthers arr low high :=
    fun m hm h => ⟨low + m * step, by omega, hbound m hm, h.symm⟩
  rcases mem_sortPy3 _ _ _ _ hpiv.symm with h | h | h
  · rcases mem_sortPy3 _ _ _ _ h.symm with h2 | h2 | h2
    · exact wit 0 (by omega) h2
    · exact wit 1 (by omega) h2
    · exact wit 2 (by omega) h2
  · rcases mem_sortPy3 _ _ _ _ h.symm with h2 | h2 | h2
    · exact wit 3 (by omega) h2
    · exact wit 4 (by omega) h2
    · exact wit 5 (by omega) h2
  · rcases mem_sortPy3 _ _ _ _ h.symm with h2 | h2 | h2
    · exact wit 6 (by omega) h2
    · exact wit 7 (by omega) h2
    · exact wit 8 (by omega) h2

/-- `_median_of_ninthers` computes exactly the spec formula: middle element
for ranges below nine, otherwise the median of the three group medians of
the nine samples. -/
theorem median_of_ninthers_formula (arr : List Int) (low high : Nat) :
    median_of_ninthers arr low high =
      if high - low + 1 < 9 then getv arr ((low + high) / 2)
      else nintherSpec arr low high := by
  by_cases hc : high - low + 1 < 9
  · rw [if_pos hc]
    simp only [median_of_ninthers]
    rw [if_pos hc]
  · rw [if_neg hc]
    set step := max ((high - low + 1) / 9) 1 with hstep
    have hunf : median_of_ninthers arr low high =
        getv (sortPy (((List.range' 0 3 3).map fun i =>
          sortPy ((((List.range 9).map fun i =>
            getv arr (low + i * step)).drop i).take 3)).map fun g => getv g 1)) 1 := by
      simp only [median_of_ninthers, ← hstep]
      rw [if_neg hc]
    have hmed : (((List.range' 0 3 3).map fun i =>
        sortPy ((((List.range 9).map fun i =>
          getv arr (low + i * step)).drop i).take 3)).map fun g => getv g 1) =
        [getv (sortPy [getv arr (low + 0 * step), getv arr (low + 1 * step),
          getv arr (low + 2 * step)]) 1,
         getv (sortPy [getv arr (low + 3 * step), getv arr (low + 4 * step),
          getv arr (low + 5 * step)]) 1,
         getv (sortPy [getv arr (low + 6 * step), getv arr (low + 7 * step),
          getv arr (low + 8 * step)]) 1] := rfl
    rw [hunf, hmed, getv_sortPy3, getv_sortPy3, getv_sortPy3, getv_sortPy3]
    rfl

/-! The two partition-based drivers. -/

/-- Sorted halves of a partitioned range concatenate to a sorted range. -/
theorem combine_halves (arr1 final : List Int) (low j high : Nat) (pivot : Int)
    (hj1 : low ≤ j) (hj2 : j + 1 ≤ high) (hlen : high < arr1.length)
    (hL : ∀ k, low ≤ k → k ≤ j → getv arr1 k ≤ pivot)
    (hR : ∀ k, j < k → k ≤ high → pivot ≤ getv arr1 k)
    (hflen : final.length = arr1.length)
    (hfl : subo final low (j+1) ~ subo arr1 low (j+1))
    (hfr : subo final (j+1) (high+1) ~ subo arr1 (j+1) (high+1))
    (hsl : List.Sorted (· ≤ ·) (subo final low (j+1)))
    (hsr : List.Sorted (· ≤ ·) (subo final (j+1) (high+1))) :
    subo final low (high+1) ~ subo arr1 low (high+1) ∧
    List.Sorted (· ≤ ·) (subo final low (high+1)) := by
  have dec1 : subo final low (high+1) =
      subo final low (j+1) ++ subo final (j+1) (high+1) :=
    subo_append _ _ _ _ (by omega) (by omega)
  have dec2 : subo arr1 low (high+1) =
      subo arr1 low (j+1) ++ subo arr1 (j+1) (high+1) :=
    subo_append _ _ _ _ (by omega) (by omega)
  constructor
  · rw [dec1, dec2]
    exact hfl.append hfr
  · rw [dec1]
    rw [List.Sorted, List.pairwise_append]
    refine ⟨hsl, hsr, ?_⟩
    intro x hx y hy
    rw [hfl.mem_iff, mem_subo arr1 low (j+1) (by omega)] at hx
    rw [hfr.mem_iff, mem_subo arr1 (j+1) (high+1) (by omega)] at hy
    obtain ⟨m, hm1, hm2, hmx⟩ := hx
    obtain ⟨m', hm'1, hm'2, hm'y⟩ := hy
    rw [← hmx, ← hm'y]
    exact (hL m hm1 (by omega)).trans (hR m' (by omega) (by omega))

/-- A range of at most one element is sorted. -/
theorem sorted_subo_small (arr : List Int) (lo hi : Nat)
    (h : hi ≤ lo + 1) (hlen : hi ≤ arr.length) :
    List.Sorted (· ≤ ·) (subo arr lo hi) := by
  rw [sorted_subo_iff _ _ _ hlen]
  intro a b ha hab hb
  omega

/-- Main driver lemma: `_introsort` sorts `[low, high]` and touches nothing
outside it, for every depth budget and any fuel above the range length. -/
theorem introLoop_spec : ∀ (sz : Nat) (arr : List Int) (low high : Nat)
    (d : Int) (fuel : Nat),
    high - low ≤ sz → sz < fuel → high < arr.length →
    ∃ out, introLoop arr low high d fuel = some out ∧
      out.length = arr.length ∧
      FrameOn arr out low high ∧
      subo out low (high + 1) ~ subo arr low (high + 1) ∧
      List.Sorted (· ≤ ·) (subo out low (high + 1)) := by
  intro sz
  induction sz using Nat.strong_induction_on with
  | _ sz ih =>
    intro arr low high d fuel hsz hfuel hlen
    obtain ⟨fuel', rfl⟩ : ∃ f, fuel = f + 1 := ⟨fuel - 1, by omega⟩
    simp only [introLoop]
    by_cases hlh : low < high
    · rw [if_pos hlh]
      by_cases h16 : high - low + 1 ≤ 16
      · rw [if_pos h16]
        obtain ⟨l1, l2, l3, l4⟩ := insertion_sort_spec arr low high (by omega) hlen
        exact ⟨_, rfl, l1, l2, l3, l4⟩
      · rw [if_neg h16]
        by_cases hd : d = 0
        · rw [if_pos hd]
          obtain ⟨l1, l2, l3, l4⟩ := heapsortRange_spec arr low high (by omega) hlen
          exact ⟨_, rfl, l1, l2, l3, l4⟩
        · rw [if_neg hd]
          have hpiv_if : (if USE_NINTHERS then median_of_ninthers arr low high
              else median_of_three arr low high) = median_of_ninthers arr low high := rfl
          obtain ⟨s, hs1, hs2, hs3⟩ := median_of_ninthers_mem arr low high (by omega)
          obtain ⟨arr1, j, hpart, hj1, hj2, hjlt, hL, hR, hperm1, hframe1⟩ :=
            hoarePartition_spec arr low high (median_of_ninthers arr low high) s s
              hlh hlen hs1 (by omega) (le_of_eq hs3.symm) (by omega) (by omega)
              (le_of_eq hs3)
          have hjh : j < high := hjlt (by omega)
          rw [hpiv_if, hpart]
          simp only [Option.bind_eq_bind, Option.some_bind]
          have hlen1 : arr1.length = arr.length := hframe1.1
          by_cases hsm : (j : Int) - low < (high : Int) - j
          · rw [if_pos hsm]
            obtain ⟨out1, e1, q1len, q1frame, q1perm, q1sort⟩ :=
              ih (j - low) (by omega) arr1 low j (d - 1) fuel' (le_refl _)
                (by omega) (by omega)
            rw [e1]
            simp only [Option.bind_eq_bind, Option.some_bind]
            obtain ⟨out2, e2, q2len, q2frame, q2perm, q2sort⟩ :=
              ih (high - (j+1)) (by omega) out1 (j+1) high d fuel'
                (le_refl _) (by omega) (by omega)
            rw [e2]
            have hfl : subo out2 low (j+1) ~ subo arr1 low (j+1) := by
              rw [subo_eq_of_frame_left low (j+1) q2frame (le_refl _)]
              exact q1perm
            have hfr : subo out2 (j+1) (high+1) ~ subo arr1 (j+1) (high+1) := by
              refine q2perm.trans ?_
              rw [subo_eq_of_frame_right (j+1) (high+1) q1frame (by omega)]
            have hsl : List.Sorted (· ≤ ·) (subo out2 low (j+1)) := by
              rw [subo_eq_of_frame_left low (j+1) q2frame (le_refl _)]
              exact q1sort
            obtain ⟨cperm, csort⟩ := combine_halves arr1 out2 low j high
              (median_of_ninthers arr low high) hj1 (by omega) (by omega)
              hL hR (by omega) hfl hfr hsl q2sort
            exact ⟨out2, rfl, by omega,
              frameOn_trans hframe1 (frameOn_trans
                (frameOn_mono q1frame (le_refl _) (by omega))
                (frameOn_mono q2frame (by omega) (le_refl _))),
              cperm.trans hperm1, csort⟩
          · rw [if_neg hsm]
            obtain ⟨out1, e1, q1len, q1frame, q1perm, q1sort⟩ :=
              ih (high - (j+1)) (by omega) arr1 (j+1) high (d - 1) fuel'
                (le_refl _) (by omega) (by omega)
            rw [e1]
            simp only [Option.bind_eq_bind, Option.some_bind]
            obtain ⟨out2, e2, q2len, q2frame, q2perm, q2sort⟩ :=
              ih (j - low) (by omega) out1 low j d fuel' (le_refl _)
                (by omega) (by omega)
            rw [e2]
            have hfl : subo out2 low (j+1) ~ subo arr1 low (j+1) := by
              refine q2perm.trans ?_
              rw [subo_eq_of_frame_left low (j+1) q1frame (le_refl _)]
            have hfr : subo out2 (j+1) (high+1) ~ subo arr1 (j+1) (high+1) := by
              rw [subo_eq_of_frame_right (j+1) (high+1) q2frame (by omega)]
              exact q1perm
            have hsr : List.Sorted (· ≤ ·) (subo out2 (j+1) (high+1)) := by
              rw [subo_eq_of_frame_right (j+1) (high+1) q2frame (by omega)]
              exact q1sort
            obtain ⟨cperm, csort⟩ := combine_halves arr1 out2 low j high
              (median_of_ninthers arr low high) hj1 (by omega) (by omega)
              hL hR (by omega) hfl hfr q2sort hsr
            exact ⟨out2, rfl, by omega,
              frameOn_trans hframe1 (frameOn_trans
                (frameOn_mono q1frame (by omega) (le_refl _))
                (frameOn_mono q2frame (le_refl _) (by omega))),
              cperm.trans hperm1, csort⟩
    · rw [if_neg hlh]
      exact ⟨arr, rfl, rfl, frameOn_refl _ _ _, Perm.refl _,
        sorted_subo_small arr low (high+1) (by omega) (by omega)⟩

/-- `introsort` succeeds on every input and returns a sorted permutation. -/
theorem introsort_spec (arr : List Int) :
    ∃ out, introsort arr = some out ∧ out ~ arr ∧
      List.Sorted (· ≤ ·) (out) := by
  rcases Nat.eq_zero_or_pos arr.length with h0 | h0
  · have : arr = [] := List.length_eq_zero.mp h0
    subst this
    exact ⟨[], rfl, Perm.refl _, by simp⟩
  · obtain ⟨out, he, hlen, hframe, hperm, hsort⟩ :=
      introLoop_spec (arr.length - 1) arr 0 (arr.length - 1)
        (((bit_length arr.length : Int) - 1) * 2) (arr.length + 1)
        (by omega) (by omega) (by omega)
    have e1 : arr.length - 1 + 1 = arr.length := by omega
    rw [e1] at hperm hsort
    have e2 : subo out 0 arr.length = out := by
      have h := subo_zero_length out
      rwa [hlen] at h
    rw [e2, subo_zero_length arr] at hperm
    rw [e2] at hsort
    exact ⟨out, he, hperm, hsort⟩

/-- Main driver lemma for `quicksort_hoare`. -/
theorem quicksortLoop_spec : ∀ (sz : Nat) (arr : List Int) (low high : Nat)
    (fuel : Nat),
    high - low ≤ sz → sz < fuel → high < arr.length →
    ∃ out, quicksortLoop arr low high fuel = some out ∧
      out.length = arr.length ∧
      FrameOn arr out low high ∧
      subo out low (high + 1) ~ subo arr low (high + 1) ∧
      List.Sorted (· ≤ ·) (subo out low (high + 1)) := by
  intro sz
  induction sz using Nat.strong_induction_on with
  | _ sz ih =>
    intro arr low high fuel hsz hfuel hlen
    obtain ⟨fuel', rfl⟩ : ∃ f, fuel = f + 1 := ⟨fuel - 1, by omega⟩
    simp only [quicksortLoop]
    by_cases hlh : low < high
    · rw [if_pos hlh]
      have hmid1 : low ≤ (low + high) / 2 := by omega
      have hmid2 : (low + high) / 2 < high := by omega
      obtain ⟨arr1, j, hpart, hj1, hj2, hjlt, hL, hR, hperm1, hframe1⟩ :=
        hoarePartition_spec arr low high (getv arr ((low + high) / 2))
          ((low + high) / 2) ((low + high) / 2) hlh hlen hmid1 (by omega)
          (le_refl _) hmid1 (by omega) (le_refl _)
      have hjh : j < high := hjlt hmid2
      have hpe : hoare_partition arr low high =
          hoarePartition arr low high (getv arr ((low + high) / 2)) := rfl
      rw [hpe, hpart]
      simp only [Option.bind_eq_bind, Option.some_bind]
      have hlen1 : arr1.length = arr.length := hframe1.1
      by_cases hsm : (j : Int) - low < (high : Int) - j
      · rw [if_pos hsm]
        obtain ⟨out1, e1, q1len, q1frame, q1perm, q1sort⟩ :=
          ih (j - low) (by omega) arr1 low j fuel' (le_refl _) (by omega) (by omega)
        rw [e1]
        simp only [Option.bind_eq_bind, Option.some_bind]
        obtain ⟨out2, e2, q2len, q2frame, q2perm, q2sort⟩ :=
          ih (high - (j+1)) (by omega) out1 (j+1) high fuel' (le_refl _)
            (by omega) (by omega)
        rw [e2]
        have hfl : subo out2 low (j+1) ~ subo arr1 low (j+1) := by
          rw [subo_eq_of_frame_left low (j+1) q2frame (le_refl _)]
          exact q1perm
        have hfr : subo out2 (j+1) (high+1) ~ subo arr1 (j+1) (high+1) := by
          refine q2perm.trans ?_
          rw [subo_eq_of_frame_right (j+1) (high+1) q1frame (by omega)]
        have hsl : List.Sorted (· ≤ ·) (subo out2 low (j+1)) := by
          rw [subo_eq_of_frame_left low (j+1) q2frame (le_refl _)]
          exact q1sort
        obtain ⟨cperm, csort⟩ := combine_halves arr1 out2 low j high
          (getv arr ((low + high) / 2)) hj1 (by omega) (by omega)
          hL hR (by omega) hfl hfr hsl q2sort
        exact ⟨out2, rfl, by omega,
          frameOn_trans hframe1 (frameOn_trans
            (frameOn_mono q1frame (le_refl _) (by omega))
            (frameOn_mono q2frame (by omega) (le_refl _))),
          cperm.trans hperm1, csort⟩
      · rw [if_neg hsm]
        obtain ⟨out1, e1, q1len, q1frame, q1perm, q1sort⟩ :=
          ih (high - (j+1)) (by omega) arr1 (j+1) high fuel' (le_refl _)
            (by omega) (by omega)
        rw [e1]
        simp only [Option.bind_eq_bind, Option.some_bind]
        obtain ⟨out2, e2, q2len, q2frame, q2perm, q2sort⟩ :=
          ih (j - low) (by omega) out1 low j fuel' (le_refl _) (by omega) (by omega)
        rw [e2]
        have hfl : subo out2 low (j+1) ~ subo arr1 low (j+1) := by
          refine q2perm.trans ?_
          rw [subo_eq_of_frame_left low (j+1) q1frame (le_refl _)]
        have hfr : subo out2 (j+1) (high+1) ~ subo arr1 (j+1) (high+1) := by
          rw [subo_eq_of_frame_right (j+1) (high+1) q2frame (by omega)]
          exact q1perm
        have hsr : List.Sorted (· ≤ ·) (subo out2 (j+1) (high+1)) := by
          rw [subo_eq_of_frame_right (j+1) (high+1) q2frame (by omega)]
          exact q1sort
        obtain ⟨cperm, csort⟩ := combine_halves arr1 out2 low j high
          (getv arr ((low + high) / 2)) hj1 (by omega) (by omega)
          hL hR (by omega) hfl hfr q2sort hsr
        exact ⟨out2, rfl, by omega,
          frameOn_trans hframe1 (frameOn_trans
            (frameOn_mono q1frame (by omega) (le_refl _))
            (frameOn_mono q2frame (le_refl _) (by omega))),
          cperm.trans hperm1, csort⟩
    · rw [if_neg hlh]
      exact ⟨arr, rfl, rfl, frameOn_refl _ _ _, Perm.refl _,
        sorted_subo_small arr low (high+1) (by omega) (by omega)⟩

/-- `quicksort_hoare` succeeds on every input and returns a sorted
permutation. -/
theorem quicksort_hoare_spec (arr : List Int) :
    ∃ out, quicksort_hoare arr = some out ∧ out ~ arr ∧
      List.Sorted (· ≤ ·) out := by
  rcases Nat.eq_zero_or_pos arr.length with h0 | h0
  · have : arr = [] := List.length_eq_zero.mp h0
    subst this
    exact ⟨[], rfl, Perm.refl _, by simp⟩
  · obtain ⟨out, he, hlen, hframe, hperm, hsort⟩ :=
      quicksortLoop_spec (arr.length - 1) arr 0 (arr.length - 1) (arr.length + 1)
        (by omega) (by omega) (by omega)
    have e1 : arr.length - 1 + 1 = arr.length := by omega
    rw [e1] at hperm hsort
    have e2 : subo out 0 arr.length = out := by
      have h := subo_zero_length out
      rwa [hlen] at h
    rw [e2, subo_zero_length arr] at hperm
    rw [e2] at hsort
    exact ⟨out, he, hperm, hsort⟩

/-! Correctness of `mergesort_bottom_up`. -/

/-- Every length-`w` chunk of the list is sorted. -/
def CS (w : Nat) (l : List Int) : Prop :=
  ∀ k : Nat, List.Sorted (· ≤ ·) ((l.drop (k * w)).take w)

theorem sorted_of_length_le_one {l : List Int} (h : l.length ≤ 1) :
    List.Sorted (· ≤ ·) l := by
  match l, h with
  | [], _ => simp
  | [a], _ => simp

theorem CS_one (l : List Int) : CS 1 l := by
  intro k
  apply sorted_of_length_le_one
  rw [List.length_take]
  omega

theorem CS_nil (w : Nat) : CS w [] := by
  intro k
  simp

theorem CS_ge {w : Nat} {l : List Int} (h : l.length ≤ w) (hcs : CS w l) :
    List.Sorted (· ≤ ·) l := by
  have := hcs 0
  rwa [Nat.zero_mul, List.drop_zero, List.take_of_length_le h] at this

theorem CS_of_sorted_short {w : Nat} {l : List Int}
    (hs : List.Sorted (· ≤ ·) l) (h : l.length ≤ w) : CS w l := by
  intro k
  cases k with
  | zero =>
    rw [Nat.zero_mul, List.drop_zero]
    exact hs.take
  | succ k =>
    rw [List.drop_eq_nil_of_le (by
      have : w ≤ (k+1) * w := by
        calc w = 1 * w := by omega
          _ ≤ (k+1) * w := Nat.mul_le_mul_right _ (by omega)
      omega)]
    simp

theorem drop_append_add (pre todo : List Int) (m : Nat) :
    (pre ++ todo).drop (pre.length + m) = todo.drop m := by
  rw [← List.drop_drop, List.drop_left]

theorem CS_drop2 {w : Nat} {l : List Int} (h : CS w l) : CS w (l.drop (2 * w)) := by
  intro k
  rw [List.drop_drop]
  have e : 2 * w + k * w = (k + 2) * w := by ring
  rw [e]
  exact h (k + 2)

theorem CS_chunk_cons {w : Nat} {m rest : List Int}
    (hlen : m.length = w) (hs : List.Sorted (· ≤ ·) m) (hcs : CS w rest) :
    CS w (m ++ rest) := by
  intro k
  cases k with
  | zero =>
    rw [Nat.zero_mul, List.drop_zero, List.take_append_of_le_length (by omega)]
    exact hs.take
  | succ k =>
    have e : (k + 1) * w = m.length + k * w := by
      rw [hlen]
      ring
    rw [e, drop_append_add]
    exact hcs k

/-- One bottom-up pass over the pending suffix: the prefix is untouched and
the suffix becomes a permutation of itself made of sorted `2w`-chunks. -/
theorem buPass_decomp (n w : Nat) (hw : 0 < w) : ∀ (c : Nat) (pre todo : List Int),
    n = pre.length + todo.length → todo.length ≤ c → CS w todo →
    ∃ todo', buPass (pre ++ todo) n w c pre.length = pre ++ todo' ∧
      todo'.length = todo.length ∧ todo' ~ todo ∧ CS (2 * w) todo' := by
  intro c
  induction c with
  | zero =>
    intro pre todo hn hc hcs
    have : todo = [] := List.length_eq_zero.mp (by omega)
    subst this
    exact ⟨[], rfl, rfl, Perm.refl _, CS_nil _⟩
  | succ c ih =>
    intro pre todo hn hc hcs
    rw [buPass]
    by_cases hin : pre.length < n
    · rw [if_pos hin]
      have htne : 0 < todo.length := by omega
      -- the three slices of the current step
      have e0 : (pre ++ todo).drop pre.length = todo := List.drop_left _ _
      have e1 : ((pre ++ todo).drop pre.length).take w = todo.take w := by rw [e0]
      have e2 : (pre ++ todo).drop (pre.length + w) = todo.drop w :=
        drop_append_add _ _ _
      have e3 : (pre ++ todo).take pre.length = pre := List.take_left _ _
      have e4 : (pre ++ todo).drop (pre.length + 2 * w) = todo.drop (2 * w) :=
        drop_append_add _ _ _
      rw [e1, e2, e3, e4]
      set merged := merge (todo.take w) ((todo.drop w).take w) with hmerged
      have hsl : List.Sorted (· ≤ ·) (todo.take w) := by
        have := hcs 0
        rwa [Nat.zero_mul, List.drop_zero] at this
      have hsr : List.Sorted (· ≤ ·) ((todo.drop w).take w) := by
        have := hcs 1
        rwa [Nat.one_mul] at this
      have hmsort : List.Sorted (· ≤ ·) merged := merge_sorted _ _ hsl hsr
      have hmperm : merged ~ todo.take (2 * w) := by
        have e : todo.take (2 * w) = todo.take w ++ (todo.drop w).take w := by
          have e' : 2 * w = w + w := by omega
          rw [e', List.take_add]
        rw [e]
        exact merge_perm _ _
      have hmlen : merged.length = min (2 * w) todo.length := by
        rw [hmperm.length_eq, List.length_take]
      by_cases hbig : 2 * w < todo.length
      · -- full chunk, keep iterating
        have hplen : (pre ++ merged).length = pre.length + 2 * w := by
          rw [List.length_append, hmlen]
          omega
        obtain ⟨todo', he, hlen', hperm', hcs'⟩ := ih (pre ++ merged)
          (todo.drop (2 * w))
          (by rw [hplen, List.length_drop]; omega)
          (by rw [List.length_drop]; omega)
          (CS_drop2 hcs)
        rw [hplen] at he
        refine ⟨merged ++ todo', ?_, ?_, ?_, ?_⟩
        · rw [he, List.append_assoc]
        · rw [List.length_append, hmlen, hlen', List.length_drop]
          omega
        · calc merged ++ todo' ~ merged ++ todo.drop (2 * w) :=
                hperm'.append_left merged
            _ ~ todo.take (2 * w) ++ todo.drop (2 * w) := hmperm.append_right _
            _ = todo := List.take_append_drop _ _
        · exact CS_chunk_cons (by omega) hmsort hcs'
      · -- last, short chunk: the next index falls past the end
        have hdrop : todo.drop (2 * w) = [] := List.drop_eq_nil_of_le (by omega)
        have hstop : ∀ res c', buPass res n w c' (pre.length + 2 * w) = res := by
          intro res c'
          cases c' with
          | zero => rfl
          | succ c' =>
            rw [buPass, if_neg (by omega)]
        rw [hstop]
        refine ⟨merged ++ todo.drop (2 * w), (List.append_assoc _ _ _), ?_, ?_, ?_⟩
        · rw [List.length_append, hmlen, List.length_drop]
          omega
        · calc merged ++ todo.drop (2 * w)
              ~ todo.take (2 * w) ++ todo.drop (2 * w) := hmperm.append_right _
            _ = todo := List.take_append_drop _ _
        · rw [hdrop, List.append_nil]
          exact CS_of_sorted_short hmsort (by omega)
    · rw [if_neg hin]
      have : todo = [] := List.length_eq_zero.mp (by omega)
      subst this
      exact ⟨[], rfl, rfl, Perm.refl _, CS_nil _⟩

theorem buLoop_spec : ∀ (fuel : Nat) (res : List Int) (n w : Nat), 0 < w →
    n = res.length → n - w ≤ fuel → CS w res →
    buLoop res n fuel w ~ res ∧ List.Sorted (· ≤ ·) (buLoop res n fuel w) := by
  intro fuel
  induction fuel with
  | zero =>
    intro res n w hw hn hf hcs
    rw [buLoop]
    exact ⟨Perm.refl _, CS_ge (by omega) hcs⟩
  | succ fuel ih =>
    intro res n w hw hn hf hcs
    rw [buLoop]
    by_cases hwn : w < n
    · rw [if_pos hwn]
      obtain ⟨todo', he, hlen', hperm', hcs'⟩ := buPass_decomp n w hw n [] res
        (by simpa using hn) (by omega) hcs
      simp only [List.nil_append, List.length_nil] at he
      rw [he]
      obtain ⟨lperm, lsort⟩ := ih todo' n (2 * w) (by omega) (by omega)
        (by omega) hcs'
      exact ⟨lperm.trans hperm', lsort⟩
    · rw [if_neg hwn]
      exact ⟨Perm.refl _, CS_ge (by omega) hcs⟩

/-- `mergesort_bottom_up` returns a sorted permutation of its input. -/
theorem mergesort_bottom_up_spec (arr : List Int) :
    mergesort_bottom_up arr ~ arr ∧
      List.Sorted (· ≤ ·) (mergesort_bottom_up arr) :=
  buLoop_spec (arr.length + 1) arr arr.length 1 (by omega) rfl (by omega)
    (CS_one arr)

/-! Facts about the instrumented driver. -/

/-- Claim shape of the specification text: a partition step hands
`d - 1` to the nested call and `d - 1` to the loop-back. -/
def evClaimC3B (e : IEv) : Bool :=
  match e with
  | IEv.split _ _ d _ dN dL => dN == d - 1 && dL == d - 1
  | _ => true

/-- What the code does: `d - 1` for the nested call, `d` unchanged for the
loop-back. -/
def evSplitDepthsB (e : IEv) : Bool :=
  match e with
  | IEv.split _ _ d _ dN dL => dN == d - 1 && dL == d
  | _ => true

theorem introEvents_split_depths : ∀ (fuel : Nat) (arr : List Int)
    (low high : Nat) (d : Int) (out : List Int) (evs : List IEv),
    introEvents arr low high d fuel = some (out, evs) →
    ∀ e ∈ evs, evSplitDepthsB e = true := by
  intro fuel
  induction fuel with
  | zero =>
    intro arr low high d out evs h
    exact absurd h (by rw [introEvents]; exact Option.noConfusion)
  | succ fuel ih =>
    intro arr low high d out evs h
    simp only [introEvents] at h
    by_cases h1 : low < high
    · rw [if_pos h1] at h
      by_cases h16 : high - low + 1 ≤ 16
      · rw [if_pos h16] at h
        simp only [Option.pure_def, Option.some.injEq, Prod.mk.injEq] at h
        obtain ⟨-, rfl⟩ := h
        intro e he
        simp only [List.mem_singleton] at he
        subst he
        rfl
      · rw [if_neg h16] at h
        by_cases hd : d = 0
        · rw [if_pos hd] at h
          simp only [Option.pure_def, Option.some.injEq, Prod.mk.injEq] at h
          obtain ⟨-, rfl⟩ := h
          intro e he
          simp only [List.mem_singleton] at he
          subst he
          rfl
        · rw [if_neg hd] at h
          cases hp : hoarePartition arr low high
              (if USE_NINTHERS then median_of_ninthers arr low high
                else median_of_three arr low high) with
          | none =>
            rw [hp] at h
            simp at h
          | some v =>
            obtain ⟨arr1, j⟩ := v
            rw [hp] at h
            simp only [Option.bind_eq_bind, Option.some_bind] at h
            by_cases hsm : (j : Int) - low < (high : Int) - j
            · rw [if_pos hsm] at h
              cases he1 : introEvents arr1 low j (d - 1) fuel with
              | none => rw [he1] at h; simp at h
              | some v1 =>
                obtain ⟨arr2, evs1⟩ := v1
                rw [he1] at h
                simp only [Option.bind_eq_bind, Option.some_bind] at h
                cases he2 : introEvents arr2 (j+1) high d fuel with
                | none => rw [he2] at h; simp at h
                | some v2 =>
                  obtain ⟨arr3, evs2⟩ := v2
                  rw [he2] at h
                  simp only [Option.pure_def, Option.some.injEq, Prod.mk.injEq] at h
                  obtain ⟨-, rfl⟩ := h
                  intro e he
                  rcases List.mem_cons.mp he with rfl | he
                  · simp [evSplitDepthsB]
                  · rcases List.mem_append.mp he with he | he
                    · exact ih arr1 low j (d - 1) arr2 evs1 he1 e he
                    · exact ih arr2 (j+1) high d arr3 evs2 he2 e he
            · rw [if_neg hsm] at h
              cases he1 : introEvents arr1 (j+1) high (d - 1) fuel with
              | none => rw [he1] at h; simp at h
              | some v1 =>
                obtain ⟨arr2, evs1⟩ := v1
                rw [he1] at h
                simp only [Option.bind_eq_bind, Option.some_bind] at h
                cases he2 : introEvents arr2 low j d fuel with
                | none => rw [he2] at h; simp at h
                | some v2 =>
                  obtain ⟨arr3, evs2⟩ := v2
                  rw [he2] at h
                  simp only [Option.pure_def, Option.some.injEq, Prod.mk.injEq] at h
                  obtain ⟨-, rfl⟩ := h
                  intro e he
                  rcases List.mem_cons.mp he with rfl | he
                  · simp [evSplitDepthsB]
                  · rcases List.mem_append.mp he with he | he
                    · exact ih arr1 (j+1) high (d - 1) arr2 evs1 he1 e he
                    · exact ih arr2 low j d arr3 evs2 he2 e he
    · rw [if_neg h1] at h
      simp only [Option.pure_def, Option.some.injEq, Prod.mk.injEq] at h
      obtain ⟨-, rfl⟩ := h
      intro e he
      simp at he

/-! ## Claim theorems -/

/-- C1: `introsort` succeeds on every input list and returns a permutation
of the input that is non-decreasing at every adjacent pair of positions
(`arr[k] ≤ arr[k+1]`). -/
theorem claim_C1_introsort_sorted_perm (arr : List Int) :
    ∃ out, introsort arr = some out ∧ out ~ arr ∧
      ∀ k, k + 1 < out.length → getv out k ≤ getv out (k + 1) := by
  obtain ⟨out, he, hp, hs⟩ := introsort_spec arr
  refine ⟨out, he, hp, ?_⟩
  intro k hk
  have hs' : List.Pairwise (· ≤ ·) out := hs
  have := List.pairwise_iff_getElem.mp hs' k (k + 1) (by omega) (by omega) (by omega)
  rwa [← getv_eq_getElem _ _ (by omega), ← getv_eq_getElem _ _ hk] at this

/-- C2: on every input, the five entry points `heapsort`, `quicksort_hoare`,
`mergesort`, `mergesort_bottom_up` and `introsort` produce the same output,
as the benchmark's final assertion demands. -/
theorem claim_C2_agreement (arr : List Int) :
    ∃ out, heapsort arr = out ∧ quicksort_hoare arr = some out ∧
      mergesort arr = out ∧ mergesort_bottom_up arr = out ∧
      introsort arr = some out := by
  obtain ⟨hhp, hhs⟩ := heapsort_perm_sorted arr
  obtain ⟨q, hq, hqp, hqs⟩ := quicksort_hoare_spec arr
  obtain ⟨o, ho, hop, hos⟩ := introsort_spec arr
  obtain ⟨hbp, hbs⟩ := mergesort_bottom_up_spec arr
  refine ⟨heapsort arr, rfl, ?_, ?_, ?_, ?_⟩
  · rw [hq, List.eq_of_perm_of_sorted (hqp.trans hhp.symm) hqs hhs]
  · exact List.eq_of_perm_of_sorted ((mergesort_perm arr).trans hhp.symm)
      (mergesort_sorted arr) hhs
  · exact List.eq_of_perm_of_sorted (hbp.trans hhp.symm) hbs hhs
  · rw [ho, List.eq_of_perm_of_sorted (hop.trans hhp.symm) hos hhs]

/-- C3 (amended): in every successful instrumented run of the introsort
driver, each partition step passes `maxdepth - 1` to the recursive call on
the smaller side but keeps `maxdepth` unchanged for the loop-back half —
not `maxdepth - 1` on both descents as claimed. -/
theorem claim_C3_split_depths (arr : List Int) (low high : Nat) (d : Int)
    (fuel : Nat) (out : List Int) (evs : List IEv)
    (h : introEvents arr low high d fuel = some (out, evs)) :
    evs.all evSplitDepthsB = true := by
  rw [List.all_eq_true]
  intro e he
  exact introEvents_split_depths fuel arr low high d out evs h e he

theorem claim_C3_witness :
    ([IEv.split 0 16 5 11 4 5, IEv.ins 12 16 4,
      IEv.ins 0 11 5].all evSplitDepthsB) = true :=
  claim_C3_split_depths
    [17, 16, 15, 14, 13, 12, 11, 10, 9, 8, 7, 6, 5, 4, 3, 2, 1] 0 16 5 18
    [1, 2, 3, 4, 5, 6, 7, 8, 9, 10, 11, 12, 13, 14, 15, 16, 17]
    [IEv.split 0 16 5 11 4 5, IEv.ins 12 16 4, IEv.ins 0 11 5] (by rfl)

/-- C3 (counterexample): on a concrete descending input the partition step
at depth 5 records budget 4 for the nested call but budget 5 — not 4 — for
the loop-back half, refuting the claimed decrement on both descents. -/
theorem claim_C3_counterexample :
    introEvents [17, 16, 15, 14, 13, 12, 11, 10, 9, 8, 7, 6, 5, 4, 3, 2, 1]
        0 16 5 18 =
      some ([1, 2, 3, 4, 5, 6, 7, 8, 9, 10, 11, 12, 13, 14, 15, 16, 17],
        [IEv.split 0 16 5 11 4 5, IEv.ins 12 16 4, IEv.ins 0 11 5]) ∧
    IEv.split 0 16 5 11 4 5 ∈
      [IEv.split 0 16 5 11 4 5, IEv.ins 12 16 4, IEv.ins 0 11 5] ∧
    evClaimC3B (IEv.split 0 16 5 11 4 5) = false :=
  ⟨by rfl, by decide, by rfl⟩

/-- C4 (amended): the depth-zero heap fallback fires only when the range
also holds more than 16 elements; it then hands the whole current range
`[low, high]` to `heapsortRange`, which sorts it in place. Smaller ranges
are insertion-sorted even at depth 0, because the size test precedes the
depth test. -/
theorem claim_C4_depth_zero (arr : List Int) (low high fuel : Nat)
    (h16 : 16 < high - low + 1) (hf : 0 < fuel) (hlen : high < arr.length) :
    introEvents arr low high 0 fuel =
      some (heapsortRange arr low high, [IEv.heap low high 0]) ∧
    List.Sorted (· ≤ ·) (subo (heapsortRange arr low high) low (high + 1)) := by
  constructor
  · obtain ⟨f, rfl⟩ : ∃ f, fuel = f + 1 := ⟨fuel - 1, by omega⟩
    simp only [introEvents]
    rw [if_pos (by omega : low < high),
      if_neg (by omega : ¬ high - low + 1 ≤ 16), if_pos trivial]
    rfl
  · exact (heapsortRange_spec arr low high (by omega) hlen).2.2.2

theorem claim_C4_witness :
    introEvents [16, 15, 14, 13, 12, 11, 10, 9, 8, 7, 6, 5, 4, 3, 2, 1, 0]
        0 16 0 1 =
      some (heapsortRange
          [16, 15, 14, 13, 12, 11, 10, 9, 8, 7, 6, 5, 4, 3, 2, 1, 0] 0 16,
        [IEv.heap 0 16 0]) ∧
    List.Sorted (· ≤ ·) (subo (heapsortRange
      [16, 15, 14, 13, 12, 11, 10, 9, 8, 7, 6, 5, 4, 3, 2, 1, 0] 0 16) 0 17) :=
  claim_C4_depth_zero
    [16, 15, 14, 13, 12, 11, 10, 9, 8, 7, 6, 5, 4, 3, 2, 1, 0] 0 16 1
    (by decide) (by decide) (by decide)

/-- C4 (counterexample): at `maxdepth = 0` a 2-element range is handled by
insertion sort, not the heap fallback, because the size check `≤ 16` comes
first. -/
theorem claim_C4_counterexample :
    introEvents [2, 1] 0 1 0 1 = some ([1, 2], [IEv.ins 0 1 0]) ∧
    [IEv.ins 0 1 0] ≠ [IEv.heap 0 1 0] :=
  ⟨by rfl, by decide⟩

/-- C5: the shared Hoare partition loop, run on a nontrivial range with a
pivot value that occurs in `arr[low..high]`, returns a split index `j` with
`low ≤ j ≤ high` such that every element of `arr[low..j]` is `≤ pivot`,
every element of `arr[j+1..high]` is `≥ pivot`, and the buffer is only
permuted. -/
theorem claim_C5_partition_post (arr : List Int) (low high : Nat)
    (pivot : Int) (hmem : pivot ∈ subo arr low (high + 1)) (hlh : low < high)
    (hlen : high < arr.length) :
    ∃ arr' j, hoarePartition arr low high pivot = some (arr', j) ∧
      low ≤ j ∧ j ≤ high ∧
      (∀ k, low ≤ k → k ≤ j → getv arr' k ≤ pivot) ∧
      (∀ k, j < k → k ≤ high → pivot ≤ getv arr' k) ∧
      arr' ~ arr := by
  obtain ⟨s, hs1, hs2, hs3⟩ := (mem_subo arr low (high + 1) (by omega) pivot).mp hmem
  obtain ⟨arr', j, he, hj1, hj2, -, hle, hge, hperm, hframe⟩ :=
    hoarePartition_spec arr low high pivot s s hlh hlen hs1 (by omega)
      hs3.ge hs1 (by omega) hs3.le
  exact ⟨arr', j, he, hj1, hj2, hle, hge,
    perm_of_frame_subo hlen (by omega) hframe hperm⟩

theorem claim_C5_witness :
    (2 : Int) ∈ subo [3, 1, 2] 0 (2 + 1) ∧ (0 : Nat) < 2 ∧
      2 < [(3 : Int), 1, 2].length ∧
    (∃ arr' j, hoarePartition [3, 1, 2] 0 2 2 = some (arr', j) ∧
      0 ≤ j ∧ j ≤ 2 ∧
      (∀ k, 0 ≤ k → k ≤ j → getv arr' k ≤ 2) ∧
      (∀ k, j < k → k ≤ 2 → 2 ≤ getv arr' k) ∧
      arr' ~ [3, 1, 2]) :=
  ⟨by decide, by decide, by decide,
    claim_C5_partition_post [3, 1, 2] 0 2 2 (by decide) (by decide) (by decide)⟩

/-- C6: under the same preconditions, the partition loop never touches an
index outside `[low, high]`: in the embedding every read and swap goes
through `getChk`, which returns `none` for any index outside `[low, high]`,
and the run nevertheless succeeds. -/
theorem claim_C6_partition_access_safe (arr : List Int) (low high : Nat)
    (pivot : Int) (hmem : pivot ∈ subo arr low (high + 1)) (hlh : low < high)
    (hlen : high < arr.length) :
    (hoarePartition arr low high pivot).isSome = true := by
  obtain ⟨s, hs1, hs2, hs3⟩ := (mem_subo arr low (high + 1) (by omega) pivot).mp hmem
  obtain ⟨arr', j, he, -⟩ :=
    hoarePartition_spec arr low high pivot s s hlh hlen hs1 (by omega)
      hs3.ge hs1 (by omega) hs3.le
  rw [he]
  rfl

theorem claim_C6_witness :
    (5 : Int) ∈ subo [5, 4, 6] 0 (2 + 1) ∧ (0 : Nat) < 2 ∧
      2 < [(5 : Int), 4, 6].length ∧
    (hoarePartition [5, 4, 6] 0 2 5).isSome = true :=
  ⟨by decide, by decide, by decide,
    claim_C6_partition_access_safe [5, 4, 6] 0 2 5 (by decide) (by decide)
      (by decide)⟩

/-- C7: `introsort` terminates on every input: the embedded driver, run
with the fuel budget `len + 1` that the definition allots, always returns
`some`. -/
theorem claim_C7_introsort_terminates (arr : List Int) :
    (introsort arr).isSome = true := by
  obtain ⟨out, he, -, -⟩ := introsort_spec arr
  rw [he]
  rfl

/-- C8: `median_of_ninthers` computes exactly the claimed formula: for
ranges smaller than 9 elements the middle element `arr[(low + high) >> 1]`,
otherwise, with `step = max(size // 9, 1)`, the median of the three group
medians of the nine samples `arr[low + i*step]`, `i = 0..8`. -/
theorem claim_C8_ninthers_formula (arr : List Int) (low high : Nat) :
    median_of_ninthers arr low high =
      if high - low + 1 < 9 then getv arr ((low + high) / 2)
      else nintherSpec arr low high :=
  median_of_ninthers_formula arr low high

/-- C9: `mergesort` returns a sorted permutation of its input. The source
function only reads `arr` (through slices) and assembles a fresh `merged`
list, so the embedding is a pure function and the input sequence is left
unchanged. -/
theorem claim_C9_mergesort_new_sorted (arr : List Int) :
    mergesort arr ~ arr ∧ List.Sorted (· ≤ ·) (mergesort arr) :=
  ⟨mergesort_perm arr, mergesort_sorted arr⟩

/-- C10: `insertion_sort` and the partial heapsort used by introsort modify
only the slice `[low, high]`: both preserve the buffer length and leave
every position outside `[low, high]` unchanged. -/
theorem claim_C10_subrange_frame (arr : List Int) (low high k : Nat)
    (h1 : low ≤ high) (h2 : high < arr.length) (h3 : k < low ∨ high < k) :
    (insertion_sort arr low high).length = arr.length ∧
    (heapsortRange arr low high).length = arr.length ∧
    getv (insertion_sort arr low high) k = getv arr k ∧
    getv (heapsortRange arr low high) k = getv arr k := by
  obtain ⟨il, ifr, -, -⟩ := insertion_sort_spec arr low high h1 h2
  obtain ⟨hl, hfr, -, -⟩ := heapsortRange_spec arr low high h1 h2
  exact ⟨il, hl, ifr.2 k h3, hfr.2 k h3⟩

theorem claim_C10_witness :
    (1 : Nat) ≤ 3 ∧ 3 < [(9 : Int), 1, 5, 3, 7].length ∧
      ((4 : Nat) < 1 ∨ 3 < 4) ∧
    ((insertion_sort [9, 1, 5, 3, 7] 1 3).length = [(9 : Int), 1, 5, 3, 7].length ∧
    (heapsortRange [9, 1, 5, 3, 7] 1 3).length = [(9 : Int), 1, 5, 3, 7].length ∧
    getv (insertion_sort [9, 1, 5, 3, 7] 1 3) 4 = getv [9, 1, 5, 3, 7] 4 ∧
    getv (heapsortRange [9, 1, 5, 3, 7] 1 3) 4 = getv [9, 1, 5, 3, 7] 4) :=
  ⟨by decide, by decide, by decide,
    claim_C10_subrange_frame [9, 1, 5, 3, 7] 1 3 4 (by decide) (by decide)
      (by decide)⟩

end SortBench
